import Mathlib

/-
Verification of the partitioned ingest-to-index pipeline and its
consistency-wait coordinator (the BleveDest / BleveDestPartition core),
shallowly embedded from the Go source.  Sequence numbers (Go uint64) are
modelled as Nat; byte slices as lists of Nat; the min-heap of pending
consistency waits is embedded from the container-heap package exactly as
the source uses it (sift-up on Push, swap-root-with-last plus sift-down
on Pop).
-/

set_option maxHeartbeats 1000000

namespace Cbft

/-- Buffered-bytes threshold at which the pending batch is applied. -/
def BLEVE_DEST_APPLY_BUF_SIZE_BYTES : Nat := 200000

/-- Initial capacity of the reusable value buffer.  Capacity is not
observable in this embedding; the constant is kept for reference. -/
def BLEVE_DEST_INITIAL_BUF_SIZE_BYTES : Nat := 20000

/-- A consistency wait request (consistencyWaitReq in the source).  The
done channel is modelled by reporting signalled requests in operation
results; the id field stands for the identity of the request's channels. -/
structure ConsistencyWaitReq where
  consistencyLevel : String
  consistencySeq : Nat
  id : Nat
deriving DecidableEq

instance : Inhabited ConsistencyWaitReq := ⟨⟨"", 0, 0⟩⟩

/-- Sequence number stored at position i of a wait queue. -/
def seqAt (q : List ConsistencyWaitReq) (i : Nat) : Nat :=
  (q.getD i default).consistencySeq

/-- cwrQueue.Less from the source: pq[i].consistencySeq < pq[j].consistencySeq. -/
def cwrLess (q : List ConsistencyWaitReq) (i j : Nat) : Bool :=
  decide (seqAt q i < seqAt q j)

/-- cwrQueue.Swap from the source: pq[i], pq[j] = pq[j], pq[i]. -/
def cwrSwap (q : List ConsistencyWaitReq) (i j : Nat) : List ConsistencyWaitReq :=
  if i < q.length ∧ j < q.length then
    (q.set i (q.getD j default)).set j (q.getD i default)
  else q

/-- The sift-up loop of the container-heap package, as run by heap.Push:
while position j is smaller than its parent, swap them and continue from
the parent. -/
def heapUp (q : List ConsistencyWaitReq) (j : Nat) : List ConsistencyWaitReq :=
  if h : (j - 1) / 2 = j then q
  else if cwrLess q j ((j - 1) / 2) then heapUp (cwrSwap q ((j - 1) / 2) j) ((j - 1) / 2)
  else q
termination_by j
decreasing_by omega

/-- The child index chosen by the sift-down loop at position i: the
right child when it exists within n and is smaller, else the left child. -/
def downChild (q : List ConsistencyWaitReq) (i n : Nat) : Nat :=
  if 2 * i + 2 < n ∧ cwrLess q (2 * i + 2) (2 * i + 1) then 2 * i + 2 else 2 * i + 1

/-- The sift-down loop of the container-heap package over the first n
positions, as run by heap.Pop: while position i has a child (within n)
smaller than it, swap with the smaller child and continue there. -/
def heapDown (q : List ConsistencyWaitReq) (i n : Nat) : List ConsistencyWaitReq :=
  if h1 : n ≤ 2 * i + 1 then q
  else if cwrLess q (downChild q i n) i then
    heapDown (cwrSwap q i (downChild q i n)) (downChild q i n) n
  else q
termination_by n - i
decreasing_by
  unfold downChild; split <;> omega

/-- heap.Push from the container-heap package: append, then sift up from
the last index. -/
def heapPush (q : List ConsistencyWaitReq) (x : ConsistencyWaitReq) :
    List ConsistencyWaitReq :=
  heapUp (q ++ [x]) q.length

/-- heap.Pop from the container-heap package: swap the root with the last
element, sift down over the shortened prefix, and remove the last element.
Returns the removed element and the remaining queue. -/
def heapPop (q : List ConsistencyWaitReq) :
    ConsistencyWaitReq × List ConsistencyWaitReq :=
  ((heapDown (cwrSwap q 0 (q.length - 1)) 0 (q.length - 1)).getD (q.length - 1) default,
   (heapDown (cwrSwap q 0 (q.length - 1)) 0 (q.length - 1)).take (q.length - 1))

theorem cwrSwap_length (q : List ConsistencyWaitReq) (i j : Nat) :
    (cwrSwap q i j).length = q.length := by
  unfold cwrSwap; split <;> simp

theorem heapUp_length (q : List ConsistencyWaitReq) (j : Nat) :
    (heapUp q j).length = q.length := by
  induction q, j using heapUp.induct with
  | case1 q j h => rw [heapUp, dif_pos h]
  | case2 q j h hl ih => rw [heapUp, dif_neg h, if_pos hl, ih, cwrSwap_length]
  | case3 q j h hl => rw [heapUp, dif_neg h, if_neg hl]

theorem heapDown_length (q : List ConsistencyWaitReq) (i n : Nat) :
    (heapDown q i n).length = q.length := by
  induction q, i, n using heapDown.induct with
  | case1 q i n h1 => rw [heapDown, dif_pos h1]
  | case2 q i n h1 hl ih => rw [heapDown, dif_neg h1, if_pos hl, ih, cwrSwap_length]
  | case3 q i n h1 hl => rw [heapDown, dif_neg h1, if_neg hl]

theorem heapPop_snd_length (q : List ConsistencyWaitReq) :
    (heapPop q).2.length = q.length - 1 := by
  unfold heapPop
  simp [heapDown_length, cwrSwap_length]

theorem getD_cwrSwap_right (q : List ConsistencyWaitReq) (i j : Nat)
    (hi : i < q.length) (hj : j < q.length) :
    (cwrSwap q i j).getD j default = q.getD i default := by
  unfold cwrSwap
  rw [if_pos ⟨hi, hj⟩]
  simp [List.getD, List.getElem?_set_self, List.length_set, hj]

theorem getD_cwrSwap_left (q : List ConsistencyWaitReq) (i j : Nat)
    (hi : i < q.length) (hj : j < q.length) :
    (cwrSwap q i j).getD i default = q.getD j default := by
  unfold cwrSwap
  rw [if_pos ⟨hi, hj⟩]
  by_cases hij : i = j
  · subst hij
    simp [List.getD, List.getElem?_set_self, List.length_set, hi]
  · simp only [List.getD, List.get?_eq_getElem?]
    rw [List.getElem?_set_ne (fun hc => hij hc.symm), List.getElem?_set_self hi]
    rfl

theorem getD_cwrSwap_other (q : List ConsistencyWaitReq) (i j k : Nat)
    (hki : k ≠ i) (hkj : k ≠ j) :
    (cwrSwap q i j).getD k default = q.getD k default := by
  unfold cwrSwap
  split
  · simp only [List.getD, List.get?_eq_getElem?]
    rw [List.getElem?_set_ne (fun hc => hkj hc.symm),
      List.getElem?_set_ne (fun hc => hki hc.symm)]
  · rfl

theorem count_set (l : List ConsistencyWaitReq) (i : Nat)
    (b x : ConsistencyWaitReq) (h : i < l.length) :
    (l.set i b).count x + (if l.getD i default = x then 1 else 0)
      = l.count x + (if b = x then 1 else 0) := by
  induction l generalizing i with
  | nil => simp at h
  | cons a t ih =>
    cases i with
    | zero =>
      simp only [List.set_cons_zero, List.count_cons, List.getD_cons_zero, beq_iff_eq]
      split_ifs <;> omega
    | succ n =>
      simp only [List.set_cons_succ, List.count_cons, List.getD_cons_succ, beq_iff_eq]
      have hn : n < t.length := by simpa using h
      have := ih n hn
      split_ifs at this ⊢ <;> omega

theorem cwrSwap_perm (q : List ConsistencyWaitReq) (i j : Nat) :
    List.Perm (cwrSwap q i j) q := by
  unfold cwrSwap
  split
  case isFalse => exact List.Perm.refl q
  case isTrue h =>
    apply List.perm_iff_count.mpr
    intro x
    have h1 := count_set q i (q.getD j default) x h.1
    have h2 := count_set (q.set i (q.getD j default)) j (q.getD i default) x
      (by simpa using h.2)
    have h3 : (q.set i (q.getD j default)).getD j default = q.getD j default := by
      by_cases hij : i = j
      · subst hij
        simp [List.getD, List.getElem?_set_self, h.1]
      · simp only [List.getD, List.get?_eq_getElem?]
        rw [List.getElem?_set_ne hij]
    rw [h3] at h2
    split_ifs at h1 h2 <;> omega

theorem heapUp_perm (q : List ConsistencyWaitReq) (j : Nat) :
    List.Perm (heapUp q j) q := by
  induction q, j using heapUp.induct with
  | case1 q j h => rw [heapUp, dif_pos h]
  | case2 q j h hl ih =>
    rw [heapUp, dif_neg h, if_pos hl]
    exact ih.trans (cwrSwap_perm q ((j - 1) / 2) j)
  | case3 q j h hl => rw [heapUp, dif_neg h, if_neg hl]

theorem heapDown_perm (q : List ConsistencyWaitReq) (i n : Nat) :
    List.Perm (heapDown q i n) q := by
  induction q, i, n using heapDown.induct with
  | case1 q i n h1 => rw [heapDown, dif_pos h1]
  | case2 q i n h1 hl ih =>
    rw [heapDown, dif_neg h1, if_pos hl]
    exact ih.trans (cwrSwap_perm q i (downChild q i n))
  | case3 q i n h1 hl => rw [heapDown, dif_neg h1, if_neg hl]

theorem downChild_bounds (q : List ConsistencyWaitReq) (i n : Nat)
    (h : ¬ n ≤ 2 * i + 1) : i < downChild q i n ∧ downChild q i n < n := by
  unfold downChild; split <;> omega

theorem heapDown_getD_ge (q : List ConsistencyWaitReq) (i n : Nat) :
    ∀ k, n ≤ k → (heapDown q i n).getD k default = q.getD k default := by
  induction q, i, n using heapDown.induct with
  | case1 q i n h1 => intro k _; rw [heapDown, dif_pos h1]
  | case2 q i n h1 hl ih =>
    intro k hk
    have hb := downChild_bounds q i n h1
    rw [heapDown, dif_neg h1, if_pos hl, ih k hk,
      getD_cwrSwap_other q i (downChild q i n) k (by omega) (by omega)]
  | case3 q i n h1 hl => intro k _; rw [heapDown, dif_neg h1, if_neg hl]

/-- The waiter wake-up loop of applyBatchUnlocked: repeatedly heap-pop
while the root's target sequence is at most the bound; returns the popped
requests in pop order together with the remaining queue. -/
def popWaiters (q : List ConsistencyWaitReq) (bound : Nat) :
    List ConsistencyWaitReq × List ConsistencyWaitReq :=
  if h : 0 < q.length ∧ seqAt q 0 ≤ bound then
    let p := heapPop q
    let rest := popWaiters p.2 bound
    (p.1 :: rest.1, rest.2)
  else ([], q)
termination_by q.length
decreasing_by
  have hp := heapPop_snd_length q
  omega

/-- Min-heap property over the first n positions: every non-root
position within n is at least its parent. -/
def heapInvN (q : List ConsistencyWaitReq) (n : Nat) : Prop :=
  ∀ j, 0 < j → j < n → seqAt q ((j - 1) / 2) ≤ seqAt q j

/-- The min-heap invariant that the container-heap package maintains for
cwrQueue: every non-root position is at least its parent. -/
def heapInv (q : List ConsistencyWaitReq) : Prop := heapInvN q q.length

instance heapInvN.dec (q : List ConsistencyWaitReq) (n : Nat) :
    Decidable (heapInvN q n) :=
  decidable_of_iff (∀ j, j < n → 0 < j → seqAt q ((j - 1) / 2) ≤ seqAt q j)
    ⟨fun h j h0 hn => h j hn h0, fun h j hn h0 => h j h0 hn⟩

instance heapInv.dec (q : List ConsistencyWaitReq) : Decidable (heapInv q) :=
  heapInvN.dec q q.length

theorem heapInvN_zero_le (q : List ConsistencyWaitReq) (n : Nat)
    (h : heapInvN q n) : ∀ k, k < n → seqAt q 0 ≤ seqAt q k := by
  intro k
  induction k using Nat.strong_induction_on with
  | _ k ih =>
    intro hk
    rcases Nat.eq_zero_or_pos k with h0 | h0
    · subst h0; exact le_refl _
    · exact le_trans (ih ((k - 1) / 2) (by omega) (by omega)) (h k h0 hk)

theorem seqAt_eq_getElem (q : List ConsistencyWaitReq) (k : Nat)
    (hk : k < q.length) : seqAt q k = (q.get ⟨k, hk⟩).consistencySeq := by
  simp [seqAt, List.getD, List.get?_eq_getElem?, List.getElem?_eq_getElem hk]

theorem heapInv_min (q : List ConsistencyWaitReq) (h : heapInv q)
    (c : ConsistencyWaitReq) (hc : c ∈ q) : seqAt q 0 ≤ c.consistencySeq := by
  obtain ⟨k, hk, hek⟩ := List.getElem_of_mem hc
  have hz := heapInvN_zero_le q q.length h k hk
  rwa [seqAt_eq_getElem q k hk, List.get_eq_getElem, hek] at hz

theorem seqAt_cwrSwap_left (q : List ConsistencyWaitReq) (i j : Nat)
    (hi : i < q.length) (hj : j < q.length) :
    seqAt (cwrSwap q i j) i = seqAt q j := by
  unfold seqAt
  rw [getD_cwrSwap_left q i j hi hj]

theorem seqAt_cwrSwap_right (q : List ConsistencyWaitReq) (i j : Nat)
    (hi : i < q.length) (hj : j < q.length) :
    seqAt (cwrSwap q i j) j = seqAt q i := by
  unfold seqAt
  rw [getD_cwrSwap_right q i j hi hj]

theorem seqAt_cwrSwap_other (q : List ConsistencyWaitReq) (i j k : Nat)
    (hki : k ≠ i) (hkj : k ≠ j) :
    seqAt (cwrSwap q i j) k = seqAt q k := by
  unfold seqAt
  rw [getD_cwrSwap_other q i j k hki hkj]

/-- Precondition under which the sift-up loop starting at position j
restores the heap invariant: the invariant holds everywhere except
possibly at the edge into j, and j's parent already bounds j's children. -/
def UpPre (q : List ConsistencyWaitReq) (j : Nat) : Prop :=
  (∀ k, 0 < k → k < q.length → k ≠ j → seqAt q ((k - 1) / 2) ≤ seqAt q k) ∧
  (0 < j → ∀ c, c < q.length → (c - 1) / 2 = j →
    seqAt q ((j - 1) / 2) ≤ seqAt q c)

theorem heapUp_inv : ∀ (q : List ConsistencyWaitReq) (j : Nat),
    j < q.length → UpPre q j → heapInv (heapUp q j) := by
  intro q j
  induction q, j using heapUp.induct with
  | case1 q j h =>
    intro _ hpre
    rw [heapUp, dif_pos h]
    intro k hk0 hklen
    exact hpre.1 k hk0 hklen (by omega)
  | case2 q j h hl ih =>
    intro hj hpre
    have hj0 : 0 < j := by omega
    have hij : (j - 1) / 2 < j := by omega
    have hi : (j - 1) / 2 < q.length := lt_trans hij hj
    have hlt : seqAt q j < seqAt q ((j - 1) / 2) := by simpa [cwrLess] using hl
    rw [heapUp, dif_neg h, if_pos hl]
    apply ih
    · rw [cwrSwap_length]; exact hi
    · constructor
      · intro k hk0 hklen hki
        rw [cwrSwap_length] at hklen
        by_cases hkj : k = j
        · rw [hkj, seqAt_cwrSwap_left q _ j hi hj, seqAt_cwrSwap_right q _ j hi hj]
          exact le_of_lt hlt
        · rw [seqAt_cwrSwap_other q _ j k hki hkj]
          by_cases hpkj : (k - 1) / 2 = j
          · rw [hpkj, seqAt_cwrSwap_right q _ j hi hj]
            exact hpre.2 hj0 k hklen hpkj
          · by_cases hpki : (k - 1) / 2 = (j - 1) / 2
            · rw [hpki, seqAt_cwrSwap_left q _ j hi hj]
              exact le_trans (le_of_lt hlt)
                (by simpa [hpki] using hpre.1 k hk0 hklen hkj)
            · rw [seqAt_cwrSwap_other q _ j _ hpki hpkj]
              exact hpre.1 k hk0 hklen hkj
      · intro hi0 c hclen hpc
        rw [cwrSwap_length] at hclen
        have hpii : ((j - 1) / 2 - 1) / 2 ≠ (j - 1) / 2 := by omega
        have hpij : ((j - 1) / 2 - 1) / 2 ≠ j := by omega
        rw [seqAt_cwrSwap_other q _ j _ hpii hpij]
        have hbase : seqAt q (((j - 1) / 2 - 1) / 2) ≤ seqAt q ((j - 1) / 2) :=
          hpre.1 ((j - 1) / 2) hi0 hi (by omega)
        by_cases hcj : c = j
        · subst hcj
          rw [seqAt_cwrSwap_right q _ c hi hj]
          exact hbase
        · have hci : c ≠ (j - 1) / 2 := by omega
          rw [seqAt_cwrSwap_other q _ j c hci hcj]
          have hc0 : 0 < c := by omega
          exact le_trans hbase (by simpa [hpc] using hpre.1 c hc0 hclen hcj)
  | case3 q j h hl =>
    intro hj hpre
    have hle : seqAt q ((j - 1) / 2) ≤ seqAt q j := by simpa [cwrLess] using hl
    rw [heapUp, dif_neg h, if_neg hl]
    intro k hk0 hklen
    by_cases hkj : k = j
    · subst hkj; exact hle
    · exact hpre.1 k hk0 hklen hkj

theorem seqAt_append_lt (q l2 : List ConsistencyWaitReq) (k : Nat)
    (hk : k < q.length) : seqAt (q ++ l2) k = seqAt q k := by
  simp [seqAt, List.getD, List.get?_eq_getElem?, List.getElem?_append, hk]

theorem heapPush_inv (q : List ConsistencyWaitReq) (x : ConsistencyWaitReq)
    (h : heapInv q) : heapInv (heapPush q x) := by
  unfold heapPush
  apply heapUp_inv (q ++ [x]) q.length (by simp)
  constructor
  · intro k hk0 hklen hkj
    have hk : k < q.length := by
      simp only [List.length_append, List.length_singleton] at hklen
      omega
    rw [seqAt_append_lt q [x] _ (by omega), seqAt_append_lt q [x] k hk]
    exact h k hk0 hk
  · intro hm c hclen hpc
    exfalso
    simp only [List.length_append, List.length_singleton] at hclen
    omega

theorem heapPush_perm (q : List ConsistencyWaitReq) (x : ConsistencyWaitReq) :
    List.Perm (heapPush q x) (x :: q) :=
  (heapUp_perm (q ++ [x]) q.length).trans (List.perm_append_singleton x q)

/-- Precondition under which the sift-down loop starting at position i
over the first n positions restores the heap invariant there: the
invariant holds except possibly at the edges out of i, and i's parent
already bounds i's children. -/
def DownPre (q : List ConsistencyWaitReq) (i n : Nat) : Prop :=
  (∀ k, 0 < k → k < n → (k - 1) / 2 ≠ i → seqAt q ((k - 1) / 2) ≤ seqAt q k) ∧
  (0 < i → ∀ c, c < n → (c - 1) / 2 = i →
    seqAt q ((i - 1) / 2) ≤ seqAt q c)

theorem downChild_min (q : List ConsistencyWaitReq) (i n : Nat)
    (h1 : ¬ n ≤ 2 * i + 1) :
    seqAt q (downChild q i n) ≤ seqAt q (2 * i + 1) ∧
    (2 * i + 2 < n → seqAt q (downChild q i n) ≤ seqAt q (2 * i + 2)) := by
  unfold downChild
  split
  case isTrue hcond =>
    have := hcond.2
    simp only [cwrLess, decide_eq_true_eq] at this
    exact ⟨le_of_lt this, fun _ => le_refl _⟩
  case isFalse hcond =>
    refine ⟨le_refl _, fun h2 => ?_⟩
    by_cases hlt : cwrLess q (2 * i + 2) (2 * i + 1)
    · exact absurd ⟨h2, hlt⟩ hcond
    · simp only [cwrLess, decide_eq_true_eq] at hlt
      omega

theorem heapDown_inv : ∀ (q : List ConsistencyWaitReq) (i n : Nat),
    n ≤ q.length → DownPre q i n → heapInvN (heapDown q i n) n := by
  intro q i n
  induction q, i, n using heapDown.induct with
  | case1 q i n h1 =>
    intro _ hpre
    rw [heapDown, dif_pos h1]
    intro k hk0 hkn
    by_cases hpk : (k - 1) / 2 = i
    · omega
    · exact hpre.1 k hk0 hkn hpk
  | case2 q i n h1 hl ih =>
    intro hn hpre
    have hb := downChild_bounds q i n h1
    have hjn : downChild q i n < n := hb.2
    have hij : i < downChild q i n := hb.1
    have hjq : downChild q i n < q.length := lt_of_lt_of_le hjn hn
    have hiq : i < q.length := lt_trans hij hjq
    have hpj : (downChild q i n - 1) / 2 = i := by
      unfold downChild at hb ⊢; split at hb <;> split <;> omega
    have hlt : seqAt q (downChild q i n) < seqAt q i := by
      simpa [cwrLess] using hl
    have hmin := downChild_min q i n h1
    rw [heapDown, dif_neg h1, if_pos hl]
    apply ih
    · rw [cwrSwap_length]; exact hn
    · constructor
      · intro k hk0 hkn hpkj
        by_cases hkj : k = downChild q i n
        · subst hkj
          rw [hpj, seqAt_cwrSwap_left q i _ hiq hjq,
            seqAt_cwrSwap_right q i _ hiq hjq]
          exact le_of_lt hlt
        · by_cases hki : k = i
          · subst hki
            have hp1 : (k - 1) / 2 ≠ k := by omega
            have hp2 : (k - 1) / 2 ≠ downChild q k n := by omega
            rw [seqAt_cwrSwap_other q k _ _ hp1 hp2,
              seqAt_cwrSwap_left q k _ hiq hjq]
            exact hpre.2 hk0 (downChild q k n) hjn hpj
          · rw [seqAt_cwrSwap_other q i _ k hki hkj]
            by_cases hpki : (k - 1) / 2 = i
            · rw [hpki, seqAt_cwrSwap_left q i _ hiq hjq]
              have hk12 : k = 2 * i + 1 ∨ k = 2 * i + 2 := by omega
              rcases hk12 with hk1 | hk2
              · rw [hk1]; exact hmin.1
              · rw [hk2]; exact hmin.2 (by omega)
            · rw [seqAt_cwrSwap_other q i _ _ hpki hpkj]
              exact hpre.1 k hk0 hkn hpki
      · intro _ c hcn hpc
        rw [hpj, seqAt_cwrSwap_left q i _ hiq hjq]
        have hc1 : c ≠ i := by omega
        have hc2 : c ≠ downChild q i n := by omega
        rw [seqAt_cwrSwap_other q i _ c hc1 hc2, ← hpc]
        exact hpre.1 c (by omega) hcn (by omega)
  | case3 q i n h1 hl =>
    intro hn hpre
    have hge : seqAt q i ≤ seqAt q (downChild q i n) := by
      simpa [cwrLess] using hl
    have hmin := downChild_min q i n h1
    rw [heapDown, dif_neg h1, if_neg hl]
    intro k hk0 hkn
    by_cases hpk : (k - 1) / 2 = i
    · rw [hpk]
      have hk12 : k = 2 * i + 1 ∨ k = 2 * i + 2 := by omega
      rcases hk12 with hk1 | hk2
      · rw [hk1]; exact le_trans hge hmin.1
      · rw [hk2]; exact le_trans hge (hmin.2 (by omega))
    · exact hpre.1 k hk0 hkn hpk

theorem seqAt_take (q : List ConsistencyWaitReq) (n k : Nat) (hk : k < n) :
    seqAt (q.take n) k = seqAt q k := by
  simp [seqAt, List.getD, List.get?_eq_getElem?, List.getElem?_take, hk]

theorem heapPop_fst (q : List ConsistencyWaitReq) (hne : q ≠ []) :
    (heapPop q).1 = q.getD 0 default := by
  have hlen : 0 < q.length := List.length_pos.mpr hne
  unfold heapPop
  rw [heapDown_getD_ge (cwrSwap q 0 (q.length - 1)) 0 (q.length - 1)
      (q.length - 1) (le_refl _),
    getD_cwrSwap_right q 0 (q.length - 1) hlen (by omega)]

theorem heapPop_perm (q : List ConsistencyWaitReq) (hne : q ≠ []) :
    List.Perm ((heapPop q).1 :: (heapPop q).2) q := by
  have hlen : 0 < q.length := List.length_pos.mpr hne
  unfold heapPop
  have hlen1 : (heapDown (cwrSwap q 0 (q.length - 1)) 0 (q.length - 1)).length
      = q.length := by rw [heapDown_length, cwrSwap_length]
  have hn : q.length - 1
      < (heapDown (cwrSwap q 0 (q.length - 1)) 0 (q.length - 1)).length := by
    omega
  have hdrop : (heapDown (cwrSwap q 0 (q.length - 1)) 0 (q.length - 1)).drop
      (q.length - 1)
      = [(heapDown (cwrSwap q 0 (q.length - 1)) 0 (q.length - 1)).getD
          (q.length - 1) default] := by
    rw [List.drop_eq_getElem_cons hn, List.drop_eq_nil_of_le (by omega),
      List.getD_eq_getElem _ default hn]
  have hdecomp : (heapDown (cwrSwap q 0 (q.length - 1)) 0 (q.length - 1)).take
        (q.length - 1)
      ++ [(heapDown (cwrSwap q 0 (q.length - 1)) 0 (q.length - 1)).getD
          (q.length - 1) default]
      = heapDown (cwrSwap q 0 (q.length - 1)) 0 (q.length - 1) := by
    conv_rhs =>
      rw [← List.take_append_drop (q.length - 1)
        (heapDown (cwrSwap q 0 (q.length - 1)) 0 (q.length - 1))]
    rw [hdrop]
  refine List.Perm.trans (List.perm_append_singleton _ _).symm ?_
  rw [hdecomp]
  exact (heapDown_perm _ _ _).trans (cwrSwap_perm q 0 (q.length - 1))

theorem heapPop_inv (q : List ConsistencyWaitReq) (h : heapInv q) :
    heapInv (heapPop q).2 := by
  have hpre : DownPre (cwrSwap q 0 (q.length - 1)) 0 (q.length - 1) := by
    constructor
    · intro k hk0 hkn hpk
      rw [seqAt_cwrSwap_other q 0 _ k (by omega) (by omega),
        seqAt_cwrSwap_other q 0 _ ((k - 1) / 2) hpk (by omega)]
      exact h k hk0 (by omega)
    · intro h0
      exact absurd h0 (lt_irrefl 0)
  have hinvN := heapDown_inv (cwrSwap q 0 (q.length - 1)) 0 (q.length - 1)
    (by rw [cwrSwap_length]; omega) hpre
  unfold heapPop
  intro k hk0 hklen
  rw [List.length_take] at hklen
  have hkn : k < q.length - 1 := by omega
  rw [seqAt_take _ _ k hkn, seqAt_take _ _ ((k - 1) / 2) (by omega)]
  exact hinvN k hk0 hkn

theorem popWaiters_eq_pos (q : List ConsistencyWaitReq) (bound : Nat)
    (h : 0 < q.length ∧ seqAt q 0 ≤ bound) :
    popWaiters q bound = ((heapPop q).1 :: (popWaiters (heapPop q).2 bound).1,
      (popWaiters (heapPop q).2 bound).2) := by
  rw [popWaiters, dif_pos h]

theorem popWaiters_eq_neg (q : List ConsistencyWaitReq) (bound : Nat)
    (h : ¬(0 < q.length ∧ seqAt q 0 ≤ bound)) :
    popWaiters q bound = ([], q) := by
  rw [popWaiters, dif_neg h]

theorem popWaiters_spec_aux (m : Nat) :
    ∀ (q : List ConsistencyWaitReq) (bound : Nat), q.length = m → heapInv q →
    List.Perm ((popWaiters q bound).1 ++ (popWaiters q bound).2) q ∧
    (∀ c ∈ (popWaiters q bound).1, c.consistencySeq ≤ bound) ∧
    (∀ c ∈ (popWaiters q bound).2, bound < c.consistencySeq) ∧
    List.Pairwise (fun a b => a.consistencySeq ≤ b.consistencySeq)
      (popWaiters q bound).1 ∧
    heapInv (popWaiters q bound).2 := by
  induction m using Nat.strong_induction_on with
  | _ m ih =>
    intro q bound hm h
    by_cases hc : 0 < q.length ∧ seqAt q 0 ≤ bound
    · have hne : q ≠ [] := by
        intro he; rw [he] at hc; simp at hc
      have hfst := heapPop_fst q hne
      have hperm := heapPop_perm q hne
      have hinv2 := heapPop_inv q h
      have hlt : (heapPop q).2.length < q.length := by
        rw [heapPop_snd_length]; omega
      obtain ⟨ihperm, ihple, ihrgt, ihsort, ihinv⟩ :=
        ih (heapPop q).2.length (hm ▸ hlt) (heapPop q).2 bound rfl hinv2
      have hroot : (heapPop q).1.consistencySeq = seqAt q 0 := by
        rw [hfst]; rfl
      rw [popWaiters_eq_pos q bound hc]
      refine ⟨?_, ?_, ?_, ?_, ?_⟩
      · simp only [List.cons_append]
        exact (ihperm.cons (heapPop q).1).trans hperm
      · intro c hcmem
        rcases List.mem_cons.mp hcmem with hch | hct
        · rw [hch, hroot]; exact hc.2
        · exact ihple c hct
      · exact ihrgt
      · refine List.Pairwise.cons ?_ ihsort
        intro b hb
        have hbq : b ∈ q := by
          have hb2 : b ∈ (heapPop q).2 :=
            ihperm.mem_iff.mp (List.mem_append.mpr (Or.inl hb))
          exact hperm.mem_iff.mp (List.mem_cons.mpr (Or.inr hb2))
        rw [hroot]
        exact heapInv_min q h b hbq
      · exact ihinv
    · rw [popWaiters_eq_neg q bound hc]
      refine ⟨by simp, by simp, ?_, by simp, h⟩
      intro c hcq
      rcases Nat.lt_or_ge bound c.consistencySeq with hgt | hle
      · exact hgt
      · exfalso
        have h0 : 0 < q.length := List.length_pos.mpr (by
          intro he; rw [he] at hcq; simp at hcq)
        have := heapInv_min q h c hcq
        exact hc ⟨h0, le_trans this hle⟩

theorem popWaiters_spec (q : List ConsistencyWaitReq) (bound : Nat)
    (h : heapInv q) :
    List.Perm ((popWaiters q bound).1 ++ (popWaiters q bound).2) q ∧
    (∀ c ∈ (popWaiters q bound).1, c.consistencySeq ≤ bound) ∧
    (∀ c ∈ (popWaiters q bound).2, bound < c.consistencySeq) ∧
    List.Pairwise (fun a b => a.consistencySeq ≤ b.consistencySeq)
      (popWaiters q bound).1 ∧
    heapInv (popWaiters q bound).2 :=
  popWaiters_spec_aux q.length q bound rfl h

/-- Byte rendering of a string key, used for engine internal keys.  For
the ASCII partition ids the system uses this coincides with Go's byte
conversion, and it is injective on all strings. -/
def strBytes (s : String) : List Nat := s.toList.map Char.toNat

/-- Big-endian 8-byte encoding of a 64-bit value, as produced by
binary.BigEndian.PutUint64. -/
def bigEndianPutUint64 (v : Nat) : List Nat :=
  [v / 2 ^ 56 % 256, v / 2 ^ 48 % 256, v / 2 ^ 40 % 256, v / 2 ^ 32 % 256,
   v / 2 ^ 24 % 256, v / 2 ^ 16 % 256, v / 2 ^ 8 % 256, v % 256]

/-- Big-endian decoding of 8 bytes, as binary.BigEndian.Uint64. -/
def bigEndianUint64 (b : List Nat) : Nat :=
  b.getD 0 0 * 2 ^ 56 + b.getD 1 0 * 2 ^ 48 + b.getD 2 0 * 2 ^ 40 +
  b.getD 3 0 * 2 ^ 32 + b.getD 4 0 * 2 ^ 24 + b.getD 5 0 * 2 ^ 16 +
  b.getD 6 0 * 2 ^ 8 + b.getD 7 0

/-- One operation recorded in a pending bleve batch. -/
inductive BatchOp where
  | index (key : List Nat) (val : List Nat)
  | delete (key : List Nat)
  | setInternal (key : List Nat) (val : List Nat)
deriving DecidableEq

/-- Association-list lookup keyed by byte strings, newest entry first. -/
def lookupA (l : List (List Nat × List Nat)) (k : List Nat) :
    Option (List Nat) :=
  match l with
  | [] => none
  | (k2, v) :: rest => if k2 = k then some v else lookupA rest k

/-- State of the underlying full-text index engine as consumed by the
core: its internal key-value store and its document store. -/
structure BleveIndex where
  internal : List (List Nat × List Nat)
  docs : List (List Nat × List Nat)
deriving DecidableEq

/-- GetInternal of the engine contract; a missing key reads as empty. -/
def getInternal (idx : BleveIndex) (k : List Nat) : List Nat :=
  (lookupA idx.internal k).getD []

/-- Commit of one batch op into the engine. -/
def applyOp (idx : BleveIndex) (op : BatchOp) : BleveIndex :=
  match op with
  | .index k v =>
    { idx with docs := (k, v) :: idx.docs.filter (fun p => decide (p.1 ≠ k)) }
  | .delete k =>
    { idx with docs := idx.docs.filter (fun p => decide (p.1 ≠ k)) }
  | .setInternal k v => { idx with internal := (k, v) :: idx.internal }

/-- Atomic commit of a whole batch (bindex.Batch on success): the ops are
applied in order, later internal-key writes winning. -/
def applyOps (idx : BleveIndex) (ops : List BatchOp) : BleveIndex :=
  ops.foldl applyOp idx

/-- Per-partition ingest state (BleveDestPartition in the source). -/
structure BleveDestPartition where
  partition : String
  partitionOpaque : String
  seqMax : Nat
  seqMaxBuf : List Nat
  seqMaxBatch : Nat
  seqSnapEnd : Nat
  buf : List Nat
  batch : List BatchOp
  lastOpaque : Option (List Nat)
  cwrQueue : List ConsistencyWaitReq
deriving DecidableEq

/-- Result of one partition operation: the new partition state, the new
engine state, the waiters signalled done with no error by the operation,
and the returned error if any.  Mutations made before an error persist,
exactly as for the in-place mutations of the source. -/
structure BDPResult where
  bdp : BleveDestPartition
  bindex : BleveIndex
  popped : List ConsistencyWaitReq
  err : Option String
deriving DecidableEq

/-- Fresh per-partition state as created by getPartitionUnlocked. -/
def newBleveDestPartition (partition : String) : BleveDestPartition :=
  { partition := partition
    partitionOpaque := "o:" ++ partition
    seqMax := 0
    seqMaxBuf := List.replicate 8 0
    seqMaxBatch := 0
    seqSnapEnd := 0
    buf := []
    batch := []
    lastOpaque := none
    cwrQueue := [] }

/-- applyBatchUnlocked from the source.  The ok flag stands for whether
the engine's batch apply succeeds; on failure the error is returned
before any state is touched, so the batch is not rotated. -/
def BleveDestPartition.applyBatchUnlocked (t : BleveDestPartition)
    (bindex : BleveIndex) (ok : Bool) : BDPResult :=
  if ok then
    { bdp := { t with
        seqMaxBatch := t.seqMax
        cwrQueue := (popWaiters t.cwrQueue t.seqMax).2
        batch := []
        buf := [] }
      bindex := applyOps bindex t.batch
      popped := (popWaiters t.cwrQueue t.seqMax).1
      err := none }
  else
    { bdp := t, bindex := bindex, popped := [], err := some "bleve batch apply failed" }

/-- The second half of updateSeqUnlocked: the early-return test when the
buffer is small and the seq is still inside the snapshot, else the
fallthrough into applyBatchUnlocked. -/
def BleveDestPartition.updateSeqTail (t : BleveDestPartition)
    (bindex : BleveIndex) (ok : Bool) (seq : Nat) : BDPResult :=
  if t.buf.length < BLEVE_DEST_APPLY_BUF_SIZE_BYTES ∧ seq < t.seqSnapEnd then
    { bdp := t, bindex := bindex, popped := [], err := none }
  else BleveDestPartition.applyBatchUnlocked t bindex ok

/-- updateSeqUnlocked from the source: raise seqMax and stage its
big-endian encoding under the partition key when the new seq is higher,
then return early or apply the batch per updateSeqTail. -/
def BleveDestPartition.updateSeqUnlocked (t : BleveDestPartition)
    (bindex : BleveIndex) (ok : Bool) (seq : Nat) : BDPResult :=
  if t.seqMax < seq then
    BleveDestPartition.updateSeqTail
      { t with
        seqMax := seq
        seqMaxBuf := bigEndianPutUint64 seq
        batch := t.batch
          ++ [BatchOp.setInternal (strBytes t.partition) (bigEndianPutUint64 seq)] }
      bindex ok seq
  else BleveDestPartition.updateSeqTail t bindex ok seq

/-- appendToBufUnlocked from the source: append to the reusable buffer
and hand back the stored copy of the value. -/
def BleveDestPartition.appendToBufUnlocked (t : BleveDestPartition)
    (b : List Nat) : BleveDestPartition × List Nat :=
  if b.length ≤ 0 then (t, b)
  else ({ t with buf := t.buf ++ b }, b)

/-- BleveDestPartition.OnDataUpdate: buffer the value, record an index op
in the pending batch, then updateSeq. -/
def BleveDestPartition.OnDataUpdate (t : BleveDestPartition)
    (bindex : BleveIndex) (ok : Bool) (key : List Nat) (seq : Nat)
    (val : List Nat) : BDPResult :=
  BleveDestPartition.updateSeqUnlocked
    { (t.appendToBufUnlocked val).1 with
      batch := (t.appendToBufUnlocked val).1.batch
        ++ [BatchOp.index key (t.appendToBufUnlocked val).2] }
    bindex ok seq

/-- BleveDestPartition.OnDataDelete: record a delete op in the pending
batch, then updateSeq. -/
def BleveDestPartition.OnDataDelete (t : BleveDestPartition)
    (bindex : BleveIndex) (ok : Bool) (key : List Nat) (seq : Nat) :
    BDPResult :=
  BleveDestPartition.updateSeqUnlocked
    { t with batch := t.batch ++ [BatchOp.delete key] } bindex ok seq

/-- BleveDestPartition.OnSnapshotStart: apply the pending batch; only on
success record the new snapshot end. -/
def BleveDestPartition.OnSnapshotStart (t : BleveDestPartition)
    (bindex : BleveIndex) (ok : Bool) (snapStart snapEnd : Nat) : BDPResult :=
  if (t.applyBatchUnlocked bindex ok).err = none then
    { t.applyBatchUnlocked bindex ok with
      bdp := { (t.applyBatchUnlocked bindex ok).bdp with seqSnapEnd := snapEnd } }
  else t.applyBatchUnlocked bindex ok

/-- BleveDestPartition.SetOpaque: cache the value and stage it in the
pending batch under the opaque key.  Copying an empty value into a nil
cache leaves the cache nil, as Go's append does. -/
def BleveDestPartition.SetOpaque (t : BleveDestPartition) (value : List Nat) :
    BleveDestPartition :=
  { t with
    lastOpaque := if t.lastOpaque = none ∧ value = [] then none else some value
    batch := t.batch
      ++ [BatchOp.setInternal (strBytes t.partitionOpaque) value] }

/-- The cached opaque bytes as returned to callers (nil reads as empty). -/
def BleveDestPartition.lastOpaqueBytes (t : BleveDestPartition) : List Nat :=
  t.lastOpaque.getD []

/-- The seqMax-recovery half of GetOpaque, run after the opaque cache
fill: when seqMax is zero it is read back from the engine (empty is
valid, any length other than 8 is an error). -/
def BleveDestPartition.getOpaqueTail (t1 : BleveDestPartition)
    (bindex : BleveIndex) :
    BleveDestPartition × List Nat × Nat × Option String :=
  if t1.seqMax ≤ 0 then
    if (getInternal bindex (strBytes t1.partition)).length ≤ 0 then
      (t1, t1.lastOpaqueBytes, 0, none)
    else if (getInternal bindex (strBytes t1.partition)).length ≠ 8 then
      (t1, [], 0, some "unexpected size for seqMax bytes")
    else
      ({ t1 with
          seqMax := bigEndianUint64 (getInternal bindex (strBytes t1.partition))
          seqMaxBuf := bigEndianPutUint64
            (bigEndianUint64 (getInternal bindex (strBytes t1.partition))) },
       t1.lastOpaqueBytes,
       bigEndianUint64 (getInternal bindex (strBytes t1.partition)), none)
  else (t1, t1.lastOpaqueBytes, t1.seqMax, none)

/-- BleveDestPartition.GetOpaque: fill the opaque cache from the engine
when unset, recover seqMax from the engine when zero, and return both. -/
def BleveDestPartition.GetOpaque (t : BleveDestPartition)
    (bindex : BleveIndex) :
    BleveDestPartition × List Nat × Nat × Option String :=
  BleveDestPartition.getOpaqueTail
    (if t.lastOpaque = none then
      { t with lastOpaque :=
          if getInternal bindex (strBytes t.partitionOpaque) = [] then none
          else some (getInternal bindex (strBytes t.partitionOpaque)) }
    else t) bindex

/-- Outcome signalled to a wait request by the partition worker. -/
inductive CwrOutcome where
  | doneOk
  | doneErr (msg : String)
  | queued
deriving DecidableEq

/-- One iteration of the partition worker loop (BleveDestPartition.run)
on a received wait request: empty level completes at once, at-plus
completes or queues against seqMaxBatch, anything else is an error. -/
def BleveDestPartition.runStep (t : BleveDestPartition)
    (cwr : ConsistencyWaitReq) : BleveDestPartition × CwrOutcome :=
  if cwr.consistencyLevel = "" then (t, CwrOutcome.doneOk)
  else if cwr.consistencyLevel = "at_plus" then
    if cwr.consistencySeq > t.seqMaxBatch then
      ({ t with cwrQueue := heapPush t.cwrQueue cwr }, CwrOutcome.queued)
    else (t, CwrOutcome.doneOk)
  else
    (t, CwrOutcome.doneErr
      ("consistency wait unsupported level: " ++ cwr.consistencyLevel))

/-- The close path of the worker loop (end of BleveDestPartition.run):
when the inbox closes, every wait still pending in the heap is signalled
with the close error. -/
def BleveDestPartition.runClose (t : BleveDestPartition) :
    List (ConsistencyWaitReq × String) :=
  t.cwrQueue.map (fun cwr => (cwr, "consistency wait closed"))

/-- Shard state (BleveDest in the source): the engine handle, none once
closed, and the partition map with the newest binding first. -/
structure BleveDest where
  path : String
  bindex : Option BleveIndex
  partitions : List (String × BleveDestPartition)
deriving DecidableEq

/-- Association lookup in the partition map, newest binding first. -/
def lookupP (l : List (String × BleveDestPartition)) (k : String) :
    Option BleveDestPartition :=
  match l with
  | [] => none
  | (k2, v) :: rest => if k2 = k then some v else lookupP rest k

/-- NewBleveDest from the source. -/
def NewBleveDest (path : String) (bindex : BleveIndex) : BleveDest :=
  { path := path, bindex := some bindex, partitions := [] }

/-- getPartitionUnlocked from the source: reject when closed, else find
or lazily create the partition's ingestor. -/
def BleveDest.getPartitionUnlocked (t : BleveDest) (partition : String) :
    Except String (BleveDest × BleveDestPartition × BleveIndex) :=
  match t.bindex with
  | none => Except.error "BleveDest already closed"
  | some bindex =>
    match lookupP t.partitions partition with
    | some bdp => Except.ok (t, bdp, bindex)
    | none =>
      Except.ok
        ({ t with partitions :=
            (partition, newBleveDestPartition partition) :: t.partitions },
         newBleveDestPartition partition, bindex)

/-- Store the updated state of a partition's ingestor and of the engine
back into the shard (the source mutates both through pointers; here the
newest binding wins). -/
def BleveDest.putPartition (t : BleveDest) (partition : String)
    (bdp : BleveDestPartition) (bindex : BleveIndex) : BleveDest :=
  { t with partitions := (partition, bdp) :: t.partitions
           bindex := some bindex }

/-- BleveDest.OnDataUpdate: dispatch to the partition's ingestor. -/
def BleveDest.OnDataUpdate (t : BleveDest) (partition : String)
    (key : List Nat) (seq : Nat) (val : List Nat) (ok : Bool) :
    BleveDest × List ConsistencyWaitReq × Option String :=
  match t.getPartitionUnlocked partition with
  | Except.error e => (t, [], some e)
  | Except.ok (t1, bdp, bindex) =>
    (t1.putPartition partition (bdp.OnDataUpdate bindex ok key seq val).bdp
       (bdp.OnDataUpdate bindex ok key seq val).bindex,
     (bdp.OnDataUpdate bindex ok key seq val).popped,
     (bdp.OnDataUpdate bindex ok key seq val).err)

/-- BleveDest.OnDataDelete: dispatch to the partition's ingestor. -/
def BleveDest.OnDataDelete (t : BleveDest) (partition : String)
    (key : List Nat) (seq : Nat) (ok : Bool) :
    BleveDest × List ConsistencyWaitReq × Option String :=
  match t.getPartitionUnlocked partition with
  | Except.error e => (t, [], some e)
  | Except.ok (t1, bdp, bindex) =>
    (t1.putPartition partition (bdp.OnDataDelete bindex ok key seq).bdp
       (bdp.OnDataDelete bindex ok key seq).bindex,
     (bdp.OnDataDelete bindex ok key seq).popped,
     (bdp.OnDataDelete bindex ok key seq).err)

/-- BleveDest.OnSnapshotStart: dispatch to the partition's ingestor. -/
def BleveDest.OnSnapshotStart (t : BleveDest) (partition : String)
    (snapStart snapEnd : Nat) (ok : Bool) :
    BleveDest × List ConsistencyWaitReq × Option String :=
  match t.getPartitionUnlocked partition with
  | Except.error e => (t, [], some e)
  | Except.ok (t1, bdp, bindex) =>
    (t1.putPartition partition
       (bdp.OnSnapshotStart bindex ok snapStart snapEnd).bdp
       (bdp.OnSnapshotStart bindex ok snapStart snapEnd).bindex,
     (bdp.OnSnapshotStart bindex ok snapStart snapEnd).popped,
     (bdp.OnSnapshotStart bindex ok snapStart snapEnd).err)

/-- BleveDest.SetOpaque: dispatch to the partition's ingestor. -/
def BleveDest.SetOpaque (t : BleveDest) (partition : String)
    (value : List Nat) : BleveDest × Option String :=
  match t.getPartitionUnlocked partition with
  | Except.error e => (t, some e)
  | Except.ok (t1, bdp, bindex) =>
    (t1.putPartition partition (bdp.SetOpaque value) bindex, none)

/-- BleveDest.GetOpaque: dispatch to the partition's ingestor, returning
the opaque value and last seq. -/
def BleveDest.GetOpaque (t : BleveDest) (partition : String) :
    BleveDest × List Nat × Nat × Option String :=
  match t.getPartitionUnlocked partition with
  | Except.error e => (t, [], 0, some e)
  | Except.ok (t1, bdp, bindex) =>
    (t1.putPartition partition (bdp.GetOpaque bindex).1 bindex,
     (bdp.GetOpaque bindex).2.1,
     (bdp.GetOpaque bindex).2.2.1,
     (bdp.GetOpaque bindex).2.2.2)

/-- BleveDest.ConsistencyWait: build the wait request and hand it to the
partition's worker (the synchronous composition of the enqueue with the
worker's dispatch); a closed shard returns the error to the caller. -/
def BleveDest.ConsistencyWait (t : BleveDest) (partition : String)
    (consistencyLevel : String) (consistencySeq : Nat) (id : Nat) :
    BleveDest × Option CwrOutcome × Option String :=
  match t.getPartitionUnlocked partition with
  | Except.error e => (t, none, some e)
  | Except.ok (t1, bdp, bindex) =>
    (t1.putPartition partition
       (bdp.runStep ⟨consistencyLevel, consistencySeq, id⟩).1 bindex,
     some (bdp.runStep ⟨consistencyLevel, consistencySeq, id⟩).2, none)

/-- closeUnlocked from the source: reject when already closed; close each
ingestor's inbox, whose worker then drains the pending waits with the
close error; clear the partition map; close the engine and null the
handle.  The closeOk flag stands for whether the engine's Close call
succeeds; when it fails the error is returned with the handle left
non-null (and the partition map already cleared). -/
def BleveDest.closeUnlocked (t : BleveDest) (closeOk : Bool) :
    BleveDest × List (ConsistencyWaitReq × String) × Option String :=
  match t.bindex with
  | none => (t, [], some "BleveDest already closed")
  | some _ =>
    if closeOk then
      ({ t with partitions := [], bindex := none },
       (t.partitions.map (fun pr => pr.2.runClose)).flatten, none)
    else
      ({ t with partitions := [] },
       (t.partitions.map (fun pr => pr.2.runClose)).flatten,
       some "bleve index close failed")

/-- The pre-computed table of 1024 vbucket-id strings from the source. -/
def vbucketIdStrings : List String := (List.range 1024).map (fun i => toString i)

/-- The table-lookup step of VBucketIdToPartitionDest: ids inside the
table read their entry, others leave the partition id empty. -/
def vbucketPartitionLookup (vbucketId : Nat) : String :=
  if vbucketId < vbucketIdStrings.length then vbucketIdStrings.getD vbucketId ""
  else ""

/-- The partition-id computation of VBucketIdToPartitionDest: the table
entry when non-empty, else the fmt rendering of the vbucket id. -/
def vbucketIdToPartition (vbucketId : Nat) : String :=
  if vbucketPartitionLookup vbucketId = "" then toString vbucketId
  else vbucketPartitionLookup vbucketId

/-- A partition-level operation, carrying the environment's success flag
where the engine is involved. -/
inductive PartitionOp where
  | update (key : List Nat) (seq : Nat) (val : List Nat) (ok : Bool)
  | delete (key : List Nat) (seq : Nat) (ok : Bool)
  | snapshotStart (snapStart snapEnd : Nat) (ok : Bool)
  | setOpaque (value : List Nat)
  | getOpaque
  | applyBatch (ok : Bool)
deriving DecidableEq

/-- Run one partition operation. -/
def runOp (t : BleveDestPartition) (bindex : BleveIndex) :
    PartitionOp → BDPResult
  | .update key seq val ok => t.OnDataUpdate bindex ok key seq val
  | .delete key seq ok => t.OnDataDelete bindex ok key seq
  | .snapshotStart s e ok => t.OnSnapshotStart bindex ok s e
  | .setOpaque value =>
    { bdp := t.SetOpaque value, bindex := bindex, popped := [], err := none }
  | .getOpaque =>
    { bdp := (t.GetOpaque bindex).1, bindex := bindex, popped := []
      err := (t.GetOpaque bindex).2.2.2 }
  | .applyBatch ok => t.applyBatchUnlocked bindex ok

/-- Run a list of partition operations, succeeding only when every
operation returns success. -/
def runOpsOk (t : BleveDestPartition) (bindex : BleveIndex) :
    List PartitionOp → Option (BleveDestPartition × BleveIndex)
  | [] => some (t, bindex)
  | op :: rest =>
    if (runOp t bindex op).err = none then
      runOpsOk (runOp t bindex op).bdp (runOp t bindex op).bindex rest
    else none

/-- C1: when applyBatch succeeds, seqMaxBatch becomes the seqMax held at
the call, exactly the queued waits with target at most the new
seqMaxBatch are popped from the heap and signalled done, the pops coming
in non-decreasing target order, the pending batch is replaced by a fresh
empty one, the value buffer is truncated to length 0, and seqSnapEnd is
unchanged. -/
theorem C1_applyBatch_success (t : BleveDestPartition) (bindex : BleveIndex)
    (hq : heapInv t.cwrQueue) :
    (t.applyBatchUnlocked bindex true).err = none ∧
    (t.applyBatchUnlocked bindex true).bdp.seqMaxBatch = t.seqMax ∧
    List.Perm
      ((t.applyBatchUnlocked bindex true).popped
        ++ (t.applyBatchUnlocked bindex true).bdp.cwrQueue) t.cwrQueue ∧
    (∀ c ∈ (t.applyBatchUnlocked bindex true).popped,
      c.consistencySeq ≤ t.seqMax) ∧
    (∀ c ∈ (t.applyBatchUnlocked bindex true).bdp.cwrQueue,
      t.seqMax < c.consistencySeq) ∧
    List.Pairwise (fun a b => a.consistencySeq ≤ b.consistencySeq)
      (t.applyBatchUnlocked bindex true).popped ∧
    (t.applyBatchUnlocked bindex true).bdp.batch = [] ∧
    (t.applyBatchUnlocked bindex true).bdp.buf = [] ∧
    (t.applyBatchUnlocked bindex true).bdp.seqSnapEnd = t.seqSnapEnd := by
  have hs := popWaiters_spec t.cwrQueue t.seqMax hq
  unfold BleveDestPartition.applyBatchUnlocked
  rw [if_pos rfl]
  exact ⟨rfl, rfl, hs.1, hs.2.1, hs.2.2.1, hs.2.2.2.1, rfl, rfl, rfl⟩

def cwrA : ConsistencyWaitReq := ⟨"at_plus", 2, 1⟩

def cwrB : ConsistencyWaitReq := ⟨"at_plus", 5, 2⟩

def cwrC : ConsistencyWaitReq := ⟨"at_plus", 3, 3⟩

def idxW : BleveIndex := ⟨[], []⟩

def bdpW1 : BleveDestPartition :=
  { newBleveDestPartition "0" with
    seqMax := 3
    seqSnapEnd := 9
    cwrQueue := [cwrA, cwrB, cwrC] }

theorem C1_applyBatch_success_witness :
    heapInv bdpW1.cwrQueue ∧
    ((bdpW1.applyBatchUnlocked idxW true).err = none ∧
     (bdpW1.applyBatchUnlocked idxW true).bdp.seqMaxBatch = bdpW1.seqMax ∧
     List.Perm
       ((bdpW1.applyBatchUnlocked idxW true).popped
         ++ (bdpW1.applyBatchUnlocked idxW true).bdp.cwrQueue) bdpW1.cwrQueue ∧
     (∀ c ∈ (bdpW1.applyBatchUnlocked idxW true).popped,
       c.consistencySeq ≤ bdpW1.seqMax) ∧
     (∀ c ∈ (bdpW1.applyBatchUnlocked idxW true).bdp.cwrQueue,
       bdpW1.seqMax < c.consistencySeq) ∧
     List.Pairwise (fun a b => a.consistencySeq ≤ b.consistencySeq)
       (bdpW1.applyBatchUnlocked idxW true).popped ∧
     (bdpW1.applyBatchUnlocked idxW true).bdp.batch = [] ∧
     (bdpW1.applyBatchUnlocked idxW true).bdp.buf = [] ∧
     (bdpW1.applyBatchUnlocked idxW true).bdp.seqSnapEnd = bdpW1.seqSnapEnd) :=
  ⟨by decide, C1_applyBatch_success bdpW1 idxW (by decide)⟩

/-- C5: on a failed engine batch apply, applyBatch returns the error and
the ingestor's state is unchanged: the batch is not rotated, and
seqMaxBatch, the buffer, the pending-wait heap and seqSnapEnd keep their
values, so a subsequent successful attempt applies the very same batch. -/
theorem C5_applyBatch_failure (t : BleveDestPartition) (bindex : BleveIndex) :
    (t.applyBatchUnlocked bindex false).err = some "bleve batch apply failed" ∧
    (t.applyBatchUnlocked bindex false).bdp = t ∧
    (t.applyBatchUnlocked bindex false).bindex = bindex ∧
    (t.applyBatchUnlocked bindex false).popped = [] ∧
    ((t.applyBatchUnlocked bindex false).bdp.applyBatchUnlocked bindex
        true).bindex = applyOps bindex t.batch :=
  ⟨rfl, rfl, rfl, rfl, rfl⟩

/-- C10: when the batch apply at the start of OnSnapshotStart fails, the
error is returned and seqSnapEnd keeps its prior value; seqSnapEnd is set
to snapEnd exactly when that apply succeeds. -/
theorem C10_onSnapshotStart (t : BleveDestPartition) (bindex : BleveIndex)
    (snapStart snapEnd : Nat) :
    ((t.OnSnapshotStart bindex false snapStart snapEnd).err
       = some "bleve batch apply failed" ∧
     (t.OnSnapshotStart bindex false snapStart snapEnd).bdp = t ∧
     (t.OnSnapshotStart bindex false snapStart snapEnd).bdp.seqSnapEnd
       = t.seqSnapEnd) ∧
    ((t.OnSnapshotStart bindex true snapStart snapEnd).err = none ∧
     (t.OnSnapshotStart bindex true snapStart snapEnd).bdp.seqSnapEnd
       = snapEnd) :=
  ⟨⟨rfl, rfl, rfl⟩, ⟨rfl, rfl⟩⟩

/-- C9: the partition id passed downstream for a vbucket id is its
decimal string: every id maps to exactly the fmt rendering, and ids below
1024 are served from the pre-computed table of 1024 strings, whose
entries agree with fmt. -/
theorem C9_vbucket_partition :
    (∀ v : Nat, vbucketIdToPartition v = toString v) ∧
    vbucketIdStrings.length = 1024 ∧
    (∀ v : Nat, v < 1024 → vbucketIdStrings.getD v "" = toString v) := by
  have hlen : vbucketIdStrings.length = 1024 := by
    simp [vbucketIdStrings]
  have htab : ∀ v : Nat, v < 1024 → vbucketIdStrings.getD v "" = toString v := by
    intro v hv
    have hvlen : v < vbucketIdStrings.length := by omega
    rw [List.getD_eq_getElem _ _ hvlen]
    simp [vbucketIdStrings]
  refine ⟨?_, hlen, htab⟩
  intro v
  by_cases hv : v < vbucketIdStrings.length
  · have hL : vbucketPartitionLookup v = toString v := by
      unfold vbucketPartitionLookup
      rw [if_pos hv]
      exact htab v (by omega)
    unfold vbucketIdToPartition
    rw [hL]
    split <;> rfl
  · have hL : vbucketPartitionLookup v = "" := by
      unfold vbucketPartitionLookup
      rw [if_neg hv]
    unfold vbucketIdToPartition
    rw [hL, if_pos rfl]

theorem C9_vbucket_partition_witness :
    vbucketIdToPartition 7 = toString 7 ∧ (7 : Nat) < 1024 ∧
    vbucketIdStrings.getD 7 "" = toString 7 ∧
    vbucketIdToPartition 4444 = toString 4444 :=
  ⟨C9_vbucket_partition.1 7, by decide, C9_vbucket_partition.2.2 7 (by decide),
   C9_vbucket_partition.1 4444⟩

theorem updateSeqTail_eq_ret (t : BleveDestPartition) (bindex : BleveIndex)
    (ok : Bool) (seq : Nat)
    (h : t.buf.length < BLEVE_DEST_APPLY_BUF_SIZE_BYTES ∧ seq < t.seqSnapEnd) :
    BleveDestPartition.updateSeqTail t bindex ok seq
      = { bdp := t, bindex := bindex, popped := [], err := none } := by
  unfold BleveDestPartition.updateSeqTail
  rw [if_pos h]

theorem updateSeqTail_eq_apply (t : BleveDestPartition) (bindex : BleveIndex)
    (ok : Bool) (seq : Nat)
    (h : ¬(t.buf.length < BLEVE_DEST_APPLY_BUF_SIZE_BYTES ∧ seq < t.seqSnapEnd)) :
    BleveDestPartition.updateSeqTail t bindex ok seq
      = t.applyBatchUnlocked bindex ok := by
  unfold BleveDestPartition.updateSeqTail
  rw [if_neg h]

theorem updateSeq_eq_stage (t : BleveDestPartition) (bindex : BleveIndex)
    (ok : Bool) (seq : Nat) (h : t.seqMax < seq) :
    t.updateSeqUnlocked bindex ok seq
      = BleveDestPartition.updateSeqTail
          { t with
            seqMax := seq
            seqMaxBuf := bigEndianPutUint64 seq
            batch := t.batch ++ [BatchOp.setInternal (strBytes t.partition)
              (bigEndianPutUint64 seq)] } bindex ok seq := by
  unfold BleveDestPartition.updateSeqUnlocked
  rw [if_pos h]

theorem updateSeq_eq_nostage (t : BleveDestPartition) (bindex : BleveIndex)
    (ok : Bool) (seq : Nat) (h : ¬ t.seqMax < seq) :
    t.updateSeqUnlocked bindex ok seq
      = BleveDestPartition.updateSeqTail t bindex ok seq := by
  unfold BleveDestPartition.updateSeqUnlocked
  rw [if_neg h]

theorem applyBatch_seqMax (t : BleveDestPartition) (bindex : BleveIndex)
    (ok : Bool) :
    (t.applyBatchUnlocked bindex ok).bdp.seqMax = t.seqMax := by
  cases ok <;> rfl

/-- C2: updateSeq raises seqMax to seq and stages the 8-byte big-endian
encoding of it under the partition key exactly when seq exceeds the old
seqMax, and the call returns without applying the batch iff the buffered
value bytes are below the 200000-byte threshold and seq is below the
snapshot end; otherwise it invokes applyBatch on the staged state. -/
theorem C2_updateSeq (t : BleveDestPartition) (bindex : BleveIndex)
    (ok : Bool) (seq : Nat) :
    (t.updateSeqUnlocked bindex ok seq).bdp.seqMax = max t.seqMax seq ∧
    (t.seqMax < seq →
      ((t.buf.length < BLEVE_DEST_APPLY_BUF_SIZE_BYTES ∧ seq < t.seqSnapEnd) →
        t.updateSeqUnlocked bindex ok seq
          = { bdp := { t with
                seqMax := seq
                seqMaxBuf := bigEndianPutUint64 seq
                batch := t.batch ++ [BatchOp.setInternal (strBytes t.partition)
                  (bigEndianPutUint64 seq)] }
              bindex := bindex, popped := [], err := none }) ∧
      (¬(t.buf.length < BLEVE_DEST_APPLY_BUF_SIZE_BYTES ∧ seq < t.seqSnapEnd) →
        t.updateSeqUnlocked bindex ok seq
          = BleveDestPartition.applyBatchUnlocked
              { t with
                seqMax := seq
                seqMaxBuf := bigEndianPutUint64 seq
                batch := t.batch ++ [BatchOp.setInternal (strBytes t.partition)
                  (bigEndianPutUint64 seq)] } bindex ok)) ∧
    (¬ t.seqMax < seq →
      ((t.buf.length < BLEVE_DEST_APPLY_BUF_SIZE_BYTES ∧ seq < t.seqSnapEnd) →
        t.updateSeqUnlocked bindex ok seq
          = { bdp := t, bindex := bindex, popped := [], err := none }) ∧
      (¬(t.buf.length < BLEVE_DEST_APPLY_BUF_SIZE_BYTES ∧ seq < t.seqSnapEnd) →
        t.updateSeqUnlocked bindex ok seq
          = t.applyBatchUnlocked bindex ok)) := by
  refine ⟨?_, fun hlt => ⟨fun hc => ?_, fun hc => ?_⟩,
    fun hge => ⟨fun hc => ?_, fun hc => ?_⟩⟩
  · by_cases hlt : t.seqMax < seq
    · rw [updateSeq_eq_stage t bindex ok seq hlt]
      by_cases hc : t.buf.length < BLEVE_DEST_APPLY_BUF_SIZE_BYTES
          ∧ seq < t.seqSnapEnd
      · rw [updateSeqTail_eq_ret
          { t with
            seqMax := seq
            seqMaxBuf := bigEndianPutUint64 seq
            batch := t.batch ++ [BatchOp.setInternal (strBytes t.partition)
              (bigEndianPutUint64 seq)] } bindex ok seq hc]
        show seq = max t.seqMax seq
        omega
      · rw [updateSeqTail_eq_apply
          { t with
            seqMax := seq
            seqMaxBuf := bigEndianPutUint64 seq
            batch := t.batch ++ [BatchOp.setInternal (strBytes t.partition)
              (bigEndianPutUint64 seq)] } bindex ok seq hc, applyBatch_seqMax]
        show seq = max t.seqMax seq
        omega
    · rw [updateSeq_eq_nostage t bindex ok seq hlt]
      by_cases hc : t.buf.length < BLEVE_DEST_APPLY_BUF_SIZE_BYTES
          ∧ seq < t.seqSnapEnd
      · rw [updateSeqTail_eq_ret t bindex ok seq hc]
        show t.seqMax = max t.seqMax seq
        omega
      · rw [updateSeqTail_eq_apply t bindex ok seq hc, applyBatch_seqMax]
        show t.seqMax = max t.seqMax seq
        omega
  · rw [updateSeq_eq_stage t bindex ok seq hlt,
      updateSeqTail_eq_ret
        { t with
            seqMax := seq
            seqMaxBuf := bigEndianPutUint64 seq
            batch := t.batch ++ [BatchOp.setInternal (strBytes t.partition)
              (bigEndianPutUint64 seq)] } bindex ok seq hc]
  · rw [updateSeq_eq_stage t bindex ok seq hlt,
      updateSeqTail_eq_apply
        { t with
            seqMax := seq
            seqMaxBuf := bigEndianPutUint64 seq
            batch := t.batch ++ [BatchOp.setInternal (strBytes t.partition)
              (bigEndianPutUint64 seq)] } bindex ok seq hc]
  · rw [updateSeq_eq_nostage t bindex ok seq hge,
      updateSeqTail_eq_ret t bindex ok seq hc]
  · rw [updateSeq_eq_nostage t bindex ok seq hge,
      updateSeqTail_eq_apply t bindex ok seq hc]

def bdpW2 : BleveDestPartition := { newBleveDestPartition "0" with seqSnapEnd := 10 }

theorem C2_updateSeq_witness :
    bdpW2.seqMax < 5 ∧
    (bdpW2.buf.length < BLEVE_DEST_APPLY_BUF_SIZE_BYTES ∧ 5 < bdpW2.seqSnapEnd) ∧
    bdpW2.updateSeqUnlocked idxW true 5
      = { bdp := { bdpW2 with
            seqMax := 5
            seqMaxBuf := bigEndianPutUint64 5
            batch := bdpW2.batch ++ [BatchOp.setInternal (strBytes bdpW2.partition)
              (bigEndianPutUint64 5)] }
          bindex := idxW, popped := [], err := none } :=
  ⟨by decide, ⟨by decide, by decide⟩,
   ((C2_updateSeq bdpW2 idxW true 5).2.1 (by decide)).1 ⟨by decide, by decide⟩⟩

/-- C3: the worker signals empty-level waits done immediately with no
error; at-plus waits complete when their target is at most seqMaxBatch
and otherwise are pushed onto the pending-waits heap, which stays a
min-heap ordered by target; any other level is answered with the
unsupported-level error. -/
theorem C3_runStep (t : BleveDestPartition) (cwr : ConsistencyWaitReq)
    (hq : heapInv t.cwrQueue) :
    (cwr.consistencyLevel = "" → t.runStep cwr = (t, CwrOutcome.doneOk)) ∧
    (cwr.consistencyLevel = "at_plus" →
      (cwr.consistencySeq ≤ t.seqMaxBatch →
        t.runStep cwr = (t, CwrOutcome.doneOk)) ∧
      (t.seqMaxBatch < cwr.consistencySeq →
        (t.runStep cwr).2 = CwrOutcome.queued ∧
        (t.runStep cwr).1.cwrQueue = heapPush t.cwrQueue cwr ∧
        List.Perm (t.runStep cwr).1.cwrQueue (cwr :: t.cwrQueue) ∧
        heapInv (t.runStep cwr).1.cwrQueue)) ∧
    (cwr.consistencyLevel ≠ "" → cwr.consistencyLevel ≠ "at_plus" →
      t.runStep cwr = (t, CwrOutcome.doneErr
        ("consistency wait unsupported level: " ++ cwr.consistencyLevel))) := by
  refine ⟨fun h => ?_, fun h => ⟨fun hle => ?_, fun hgt => ?_⟩,
    fun h1 h2 => ?_⟩
  · unfold BleveDestPartition.runStep
    rw [if_pos h]
  · unfold BleveDestPartition.runStep
    rw [if_neg (by simp [h]), if_pos h, if_neg (by omega)]
  · unfold BleveDestPartition.runStep
    rw [if_neg (by simp [h]), if_pos h, if_pos hgt]
    exact ⟨rfl, rfl, heapPush_perm t.cwrQueue cwr, heapPush_inv t.cwrQueue cwr hq⟩
  · unfold BleveDestPartition.runStep
    rw [if_neg h1, if_neg h2]

def cwrQ : ConsistencyWaitReq := ⟨"at_plus", 7, 4⟩

def bdpW3 : BleveDestPartition :=
  { newBleveDestPartition "0" with seqMax := 3, seqMaxBatch := 3 }

theorem C3_runStep_witness :
    heapInv bdpW3.cwrQueue ∧ cwrQ.consistencyLevel = "at_plus" ∧
    bdpW3.seqMaxBatch < cwrQ.consistencySeq ∧
    ((bdpW3.runStep cwrQ).2 = CwrOutcome.queued ∧
     (bdpW3.runStep cwrQ).1.cwrQueue = heapPush bdpW3.cwrQueue cwrQ ∧
     List.Perm (bdpW3.runStep cwrQ).1.cwrQueue (cwrQ :: bdpW3.cwrQueue) ∧
     heapInv (bdpW3.runStep cwrQ).1.cwrQueue) :=
  ⟨by decide, by decide, by decide,
   ((C3_runStep bdpW3 cwrQ (by decide)).2.1 (by decide)).2 (by decide)⟩

theorem applyBatch_seq_step (t : BleveDestPartition) (bindex : BleveIndex)
    (ok : Bool) (hinv : t.seqMaxBatch ≤ t.seqMax) :
    (t.applyBatchUnlocked bindex ok).bdp.seqMaxBatch
      ≤ (t.applyBatchUnlocked bindex ok).bdp.seqMax ∧
    t.seqMaxBatch ≤ (t.applyBatchUnlocked bindex ok).bdp.seqMaxBatch ∧
    t.seqMax ≤ (t.applyBatchUnlocked bindex ok).bdp.seqMax := by
  cases ok
  · exact ⟨hinv, le_refl _, le_refl _⟩
  · exact ⟨le_refl _, hinv, le_refl _⟩

theorem updateSeqTail_seq_step (t : BleveDestPartition) (bindex : BleveIndex)
    (ok : Bool) (seq : Nat) (hinv : t.seqMaxBatch ≤ t.seqMax) :
    (BleveDestPartition.updateSeqTail t bindex ok seq).bdp.seqMaxBatch
      ≤ (BleveDestPartition.updateSeqTail t bindex ok seq).bdp.seqMax ∧
    t.seqMaxBatch
      ≤ (BleveDestPartition.updateSeqTail t bindex ok seq).bdp.seqMaxBatch ∧
    t.seqMax ≤ (BleveDestPartition.updateSeqTail t bindex ok seq).bdp.seqMax := by
  by_cases hc : t.buf.length < BLEVE_DEST_APPLY_BUF_SIZE_BYTES
      ∧ seq < t.seqSnapEnd
  · rw [updateSeqTail_eq_ret t bindex ok seq hc]
    exact ⟨hinv, le_refl _, le_refl _⟩
  · rw [updateSeqTail_eq_apply t bindex ok seq hc]
    exact applyBatch_seq_step t bindex ok hinv

theorem updateSeq_seq_step (t : BleveDestPartition) (bindex : BleveIndex)
    (ok : Bool) (seq : Nat) (hinv : t.seqMaxBatch ≤ t.seqMax) :
    (t.updateSeqUnlocked bindex ok seq).bdp.seqMaxBatch
      ≤ (t.updateSeqUnlocked bindex ok seq).bdp.seqMax ∧
    t.seqMaxBatch ≤ (t.updateSeqUnlocked bindex ok seq).bdp.seqMaxBatch ∧
    t.seqMax ≤ (t.updateSeqUnlocked bindex ok seq).bdp.seqMax := by
  by_cases hlt : t.seqMax < seq
  · rw [updateSeq_eq_stage t bindex ok seq hlt]
    have h2 := updateSeqTail_seq_step
      { t with
        seqMax := seq
        seqMaxBuf := bigEndianPutUint64 seq
        batch := t.batch ++ [BatchOp.setInternal (strBytes t.partition)
          (bigEndianPutUint64 seq)] } bindex ok seq
      (by show t.seqMaxBatch ≤ seq; omega)
    exact ⟨h2.1, h2.2.1, le_trans (le_of_lt hlt) h2.2.2⟩
  · rw [updateSeq_eq_nostage t bindex ok seq hlt]
    exact updateSeqTail_seq_step t bindex ok seq hinv

theorem getOpaqueTail_seq_step (t1 : BleveDestPartition) (bindex : BleveIndex)
    (hinv : t1.seqMaxBatch ≤ t1.seqMax) :
    (BleveDestPartition.getOpaqueTail t1 bindex).1.seqMaxBatch
      ≤ (BleveDestPartition.getOpaqueTail t1 bindex).1.seqMax ∧
    t1.seqMaxBatch ≤ (BleveDestPartition.getOpaqueTail t1 bindex).1.seqMaxBatch ∧
    t1.seqMax ≤ (BleveDestPartition.getOpaqueTail t1 bindex).1.seqMax := by
  unfold BleveDestPartition.getOpaqueTail
  by_cases h0 : t1.seqMax ≤ 0
  · rw [if_pos h0]
    by_cases hl0 : (getInternal bindex (strBytes t1.partition)).length ≤ 0
    · rw [if_pos hl0]
      exact ⟨hinv, le_refl _, le_refl _⟩
    · rw [if_neg hl0]
      by_cases hl8 : (getInternal bindex (strBytes t1.partition)).length ≠ 8
      · rw [if_pos hl8]
        exact ⟨hinv, le_refl _, le_refl _⟩
      · rw [if_neg hl8]
        refine ⟨?_, ?_, ?_⟩
        · show t1.seqMaxBatch ≤ bigEndianUint64 _
          omega
        · show t1.seqMaxBatch ≤ t1.seqMaxBatch
          exact le_refl _
        · show t1.seqMax ≤ bigEndianUint64 _
          omega
  · rw [if_neg h0]
    exact ⟨hinv, le_refl _, le_refl _⟩

theorem getOpaque_seq_step (t : BleveDestPartition) (bindex : BleveIndex)
    (hinv : t.seqMaxBatch ≤ t.seqMax) :
    (t.GetOpaque bindex).1.seqMaxBatch ≤ (t.GetOpaque bindex).1.seqMax ∧
    t.seqMaxBatch ≤ (t.GetOpaque bindex).1.seqMaxBatch ∧
    t.seqMax ≤ (t.GetOpaque bindex).1.seqMax := by
  unfold BleveDestPartition.GetOpaque
  by_cases hl : t.lastOpaque = none
  · rw [if_pos hl]
    exact getOpaqueTail_seq_step _ bindex hinv
  · rw [if_neg hl]
    exact getOpaqueTail_seq_step t bindex hinv

theorem onDataUpdate_eq (t : BleveDestPartition) (bindex : BleveIndex)
    (ok : Bool) (key : List Nat) (seq : Nat) (val : List Nat) :
    t.OnDataUpdate bindex ok key seq val
      = BleveDestPartition.updateSeqUnlocked
          { t with
            buf := if val.length ≤ 0 then t.buf else t.buf ++ val
            batch := t.batch ++ [BatchOp.index key val] } bindex ok seq := by
  unfold BleveDestPartition.OnDataUpdate BleveDestPartition.appendToBufUnlocked
  by_cases hv : val.length ≤ 0
  · rw [if_pos hv, if_pos hv]
  · rw [if_neg hv, if_neg hv]

theorem onSnapshotStart_seq_step (t : BleveDestPartition) (bindex : BleveIndex)
    (ok : Bool) (s e : Nat) (hinv : t.seqMaxBatch ≤ t.seqMax) :
    (t.OnSnapshotStart bindex ok s e).bdp.seqMaxBatch
      ≤ (t.OnSnapshotStart bindex ok s e).bdp.seqMax ∧
    t.seqMaxBatch ≤ (t.OnSnapshotStart bindex ok s e).bdp.seqMaxBatch ∧
    t.seqMax ≤ (t.OnSnapshotStart bindex ok s e).bdp.seqMax := by
  cases ok
  · exact applyBatch_seq_step t bindex false hinv
  · exact applyBatch_seq_step t bindex true hinv

theorem runOp_seq_step (t : BleveDestPartition) (bindex : BleveIndex)
    (op : PartitionOp) (hinv : t.seqMaxBatch ≤ t.seqMax) :
    (runOp t bindex op).bdp.seqMaxBatch ≤ (runOp t bindex op).bdp.seqMax ∧
    t.seqMaxBatch ≤ (runOp t bindex op).bdp.seqMaxBatch ∧
    t.seqMax ≤ (runOp t bindex op).bdp.seqMax := by
  cases op with
  | update key seq val ok =>
    show (BleveDestPartition.OnDataUpdate t bindex ok key seq val).bdp.seqMaxBatch
        ≤ (BleveDestPartition.OnDataUpdate t bindex ok key seq val).bdp.seqMax ∧
      t.seqMaxBatch
        ≤ (BleveDestPartition.OnDataUpdate t bindex ok key seq val).bdp.seqMaxBatch ∧
      t.seqMax ≤ (BleveDestPartition.OnDataUpdate t bindex ok key seq val).bdp.seqMax
    rw [onDataUpdate_eq t bindex ok key seq val]
    exact updateSeq_seq_step
      { t with
        buf := if val.length ≤ 0 then t.buf else t.buf ++ val
        batch := t.batch ++ [BatchOp.index key val] } bindex ok seq hinv
  | delete key seq ok =>
    exact updateSeq_seq_step
      { t with batch := t.batch ++ [BatchOp.delete key] } bindex ok seq hinv
  | snapshotStart s e ok =>
    exact onSnapshotStart_seq_step t bindex ok s e hinv
  | setOpaque value =>
    exact ⟨hinv, le_refl _, le_refl _⟩
  | getOpaque =>
    exact getOpaque_seq_step t bindex hinv
  | applyBatch ok =>
    exact applyBatch_seq_step t bindex ok hinv

/-- C4: across any sequence of partition operations that all return
success, the invariant seqMaxBatch ≤ seqMax is preserved and both
counters are monotonically non-decreasing; as the start state is
arbitrary, the invariant holds at every intermediate state as well. -/
theorem C4_invariant (ops : List PartitionOp) :
    ∀ (t : BleveDestPartition) (bindex : BleveIndex)
      (t2 : BleveDestPartition) (bindex2 : BleveIndex),
      t.seqMaxBatch ≤ t.seqMax →
      runOpsOk t bindex ops = some (t2, bindex2) →
      t2.seqMaxBatch ≤ t2.seqMax ∧ t.seqMaxBatch ≤ t2.seqMaxBatch ∧
      t.seqMax ≤ t2.seqMax := by
  induction ops with
  | nil =>
    intro t bindex t2 bindex2 hinv h
    simp only [runOpsOk, Option.some.injEq, Prod.mk.injEq] at h
    obtain ⟨h1, h2⟩ := h
    subst h1
    exact ⟨hinv, le_refl _, le_refl _⟩
  | cons op rest ih =>
    intro t bindex t2 bindex2 hinv h
    unfold runOpsOk at h
    split at h
    · have hstep := runOp_seq_step t bindex op hinv
      have hrec := ih (runOp t bindex op).bdp (runOp t bindex op).bindex
        t2 bindex2 hstep.1 h
      exact ⟨hrec.1, le_trans hstep.2.1 hrec.2.1, le_trans hstep.2.2 hrec.2.2⟩
    · exact absurd h (by simp)

theorem C4_invariant_witness :
    bdpW1.seqMaxBatch ≤ bdpW1.seqMax ∧
    runOpsOk bdpW1 idxW [PartitionOp.applyBatch true]
      = some ((bdpW1.applyBatchUnlocked idxW true).bdp,
              (bdpW1.applyBatchUnlocked idxW true).bindex) ∧
    ((bdpW1.applyBatchUnlocked idxW true).bdp.seqMaxBatch
        ≤ (bdpW1.applyBatchUnlocked idxW true).bdp.seqMax ∧
     bdpW1.seqMaxBatch ≤ (bdpW1.applyBatchUnlocked idxW true).bdp.seqMaxBatch ∧
     bdpW1.seqMax ≤ (bdpW1.applyBatchUnlocked idxW true).bdp.seqMax) :=
  ⟨by decide, rfl,
   C4_invariant [PartitionOp.applyBatch true] bdpW1 idxW
     (bdpW1.applyBatchUnlocked idxW true).bdp
     (bdpW1.applyBatchUnlocked idxW true).bindex (by decide) rfl⟩

theorem strBytes_length (s : String) : (strBytes s).length = s.length := by
  unfold strBytes
  rw [List.length_map]
  rfl

theorem opaqueKey_ne_partitionKey (p : String) :
    strBytes ("o:" ++ p) ≠ strBytes p := by
  intro h
  have hl := congrArg List.length h
  rw [strBytes_length, strBytes_length, String.length_append] at hl
  have h2 : ("o:" : String).length = 2 := rfl
  omega

theorem lastOpaqueBytes_fill (t : BleveDestPartition) (r : List Nat) :
    BleveDestPartition.lastOpaqueBytes
      { t with lastOpaque := if r = [] then none else some r } = r := by
  by_cases hr : r = []
  · simp [BleveDestPartition.lastOpaqueBytes, hr]
  · simp [BleveDestPartition.lastOpaqueBytes, hr]

theorem getOpaqueTail_cases (t1 : BleveDestPartition) (bindex : BleveIndex) :
    (t1.seqMax = 0 →
      ((getInternal bindex (strBytes t1.partition)).length = 0 →
        BleveDestPartition.getOpaqueTail t1 bindex
          = (t1, t1.lastOpaqueBytes, 0, none)) ∧
      ((getInternal bindex (strBytes t1.partition)).length = 8 →
        BleveDestPartition.getOpaqueTail t1 bindex
          = ({ t1 with
                seqMax := bigEndianUint64
                  (getInternal bindex (strBytes t1.partition))
                seqMaxBuf := bigEndianPutUint64 (bigEndianUint64
                  (getInternal bindex (strBytes t1.partition))) },
             t1.lastOpaqueBytes,
             bigEndianUint64 (getInternal bindex (strBytes t1.partition)),
             none)) ∧
      ((getInternal bindex (strBytes t1.partition)).length ≠ 0 →
       (getInternal bindex (strBytes t1.partition)).length ≠ 8 →
        BleveDestPartition.getOpaqueTail t1 bindex
          = (t1, [], 0, some "unexpected size for seqMax bytes"))) ∧
    (0 < t1.seqMax →
      BleveDestPartition.getOpaqueTail t1 bindex
        = (t1, t1.lastOpaqueBytes, t1.seqMax, none)) := by
  constructor
  · intro h0
    refine ⟨fun hl0 => ?_, fun hl8 => ?_, fun hl0 hl8 => ?_⟩
    · unfold BleveDestPartition.getOpaqueTail
      rw [if_pos (by omega), if_pos (by omega)]
    · unfold BleveDestPartition.getOpaqueTail
      rw [if_pos (by omega), if_neg (by omega), if_neg (by omega)]
    · unfold BleveDestPartition.getOpaqueTail
      rw [if_pos (by omega), if_neg (by omega), if_pos hl8]
  · intro h0
    unfold BleveDestPartition.getOpaqueTail
    rw [if_neg (by omega)]

/-- C6: GetOpaque reads the opaque internal key only when the cache is
unset: a set cache makes the whole call independent of that key and the
cached bytes come back on success, while an unset cache returns exactly
the bytes stored under the opaque key.  When seqMax is zero the partition
key is read: empty is valid and yields 0, exactly 8 bytes decode
big-endian into seqMax, any other length is the hard size error.  On
success the returned pair is the cached opaque and the state's seqMax. -/
theorem C6_getOpaque (t : BleveDestPartition) (bindex bindex2 : BleveIndex)
    (hOp : t.partitionOpaque = "o:" ++ t.partition) :
    (∀ v, t.lastOpaque = some v →
      ((∀ k, k ≠ strBytes t.partitionOpaque →
          getInternal bindex2 k = getInternal bindex k) →
        t.GetOpaque bindex2 = t.GetOpaque bindex) ∧
      ((t.GetOpaque bindex).2.2.2 = none → (t.GetOpaque bindex).2.1 = v)) ∧
    (t.lastOpaque = none →
      (t.GetOpaque bindex).2.2.2 = none →
      (t.GetOpaque bindex).2.1
        = getInternal bindex (strBytes t.partitionOpaque)) ∧
    (t.seqMax = 0 →
      ((getInternal bindex (strBytes t.partition)).length = 0 →
        (t.GetOpaque bindex).2.2.1 = 0 ∧ (t.GetOpaque bindex).2.2.2 = none) ∧
      ((getInternal bindex (strBytes t.partition)).length = 8 →
        (t.GetOpaque bindex).2.2.1
          = bigEndianUint64 (getInternal bindex (strBytes t.partition)) ∧
        (t.GetOpaque bindex).2.2.2 = none ∧
        (t.GetOpaque bindex).1.seqMax
          = bigEndianUint64 (getInternal bindex (strBytes t.partition))) ∧
      ((getInternal bindex (strBytes t.partition)).length ≠ 0 →
       (getInternal bindex (strBytes t.partition)).length ≠ 8 →
        (t.GetOpaque bindex).2.2.2
          = some "unexpected size for seqMax bytes")) ∧
    (0 < t.seqMax →
      (t.GetOpaque bindex).2.2.1 = t.seqMax ∧
      (t.GetOpaque bindex).2.2.2 = none) ∧
    ((t.GetOpaque bindex).2.2.2 = none →
      (t.GetOpaque bindex).2.1 = (t.GetOpaque bindex).1.lastOpaqueBytes ∧
      (t.GetOpaque bindex).2.2.1 = (t.GetOpaque bindex).1.seqMax) := by
  by_cases hl : t.lastOpaque = none
  · have heq : ∀ b : BleveIndex, t.GetOpaque b
        = BleveDestPartition.getOpaqueTail
            { t with lastOpaque :=
                if getInternal b (strBytes t.partitionOpaque) = [] then none
                else some (getInternal b (strBytes t.partitionOpaque)) } b := by
      intro b
      unfold BleveDestPartition.GetOpaque
      rw [if_pos hl]
    have hcs := getOpaqueTail_cases
      { t with lastOpaque :=
          if getInternal bindex (strBytes t.partitionOpaque) = [] then none
          else some (getInternal bindex (strBytes t.partitionOpaque)) } bindex
    have hlob := lastOpaqueBytes_fill t
      (getInternal bindex (strBytes t.partitionOpaque))
    refine ⟨?_, ?_, ?_, ?_, ?_⟩
    · intro v hv
      rw [hl] at hv
      exact absurd hv (by simp)
    · intro _ hsucc
      rw [heq bindex] at hsucc ⊢
      by_cases h0 : t.seqMax = 0
      · by_cases hl0 : (getInternal bindex (strBytes t.partition)).length = 0
        · rw [(hcs.1 h0).1 hl0]
          exact hlob
        · by_cases hl8 : (getInternal bindex (strBytes t.partition)).length = 8
          · rw [(hcs.1 h0).2.1 hl8]
            exact hlob
          · rw [(hcs.1 h0).2.2 hl0 hl8] at hsucc
            exact absurd hsucc (by simp)
      · rw [hcs.2 (by show 0 < t.seqMax; omega)]
        exact hlob
    · intro h0
      rw [heq bindex]
      refine ⟨fun hl0 => ?_, fun hl8 => ?_, fun hl0 hl8 => ?_⟩
      · rw [(hcs.1 h0).1 hl0]
        exact ⟨rfl, rfl⟩
      · rw [(hcs.1 h0).2.1 hl8]
        exact ⟨rfl, rfl, rfl⟩
      · rw [(hcs.1 h0).2.2 hl0 hl8]
    · intro h0
      rw [heq bindex, hcs.2 (by show 0 < t.seqMax; omega)]
      exact ⟨rfl, rfl⟩
    · intro hsucc
      rw [heq bindex] at hsucc ⊢
      by_cases h0 : t.seqMax = 0
      · by_cases hl0 : (getInternal bindex (strBytes t.partition)).length = 0
        · rw [(hcs.1 h0).1 hl0]
          refine ⟨rfl, ?_⟩
          show (0 : Nat) = t.seqMax
          omega
        · by_cases hl8 : (getInternal bindex (strBytes t.partition)).length = 8
          · rw [(hcs.1 h0).2.1 hl8]
            exact ⟨rfl, rfl⟩
          · rw [(hcs.1 h0).2.2 hl0 hl8] at hsucc
            exact absurd hsucc (by simp)
      · rw [hcs.2 (by show 0 < t.seqMax; omega)]
        exact ⟨rfl, rfl⟩
  · have heq : ∀ b : BleveIndex, t.GetOpaque b
        = BleveDestPartition.getOpaqueTail t b := by
      intro b
      unfold BleveDestPartition.GetOpaque
      rw [if_neg hl]
    have hcs := getOpaqueTail_cases t bindex
    refine ⟨?_, ?_, ?_, ?_, ?_⟩
    · intro v hv
      constructor
      · intro hagree
        have hpk : strBytes t.partition ≠ strBytes t.partitionOpaque := by
          rw [hOp]
          exact fun hc => opaqueKey_ne_partitionKey t.partition hc.symm
        have hg := hagree (strBytes t.partition) hpk
        rw [heq bindex2, heq bindex]
        unfold BleveDestPartition.getOpaqueTail
        rw [hg]
      · intro hsucc
        have hv2 : t.lastOpaqueBytes = v := by
          simp [BleveDestPartition.lastOpaqueBytes, hv]
        rw [heq bindex] at hsucc ⊢
        by_cases h0 : t.seqMax = 0
        · by_cases hl0 : (getInternal bindex (strBytes t.partition)).length = 0
          · rw [(hcs.1 h0).1 hl0]
            exact hv2
          · by_cases hl8 : (getInternal bindex (strBytes t.partition)).length = 8
            · rw [(hcs.1 h0).2.1 hl8]
              exact hv2
            · rw [(hcs.1 h0).2.2 hl0 hl8] at hsucc
              exact absurd hsucc (by simp)
        · rw [hcs.2 (by omega)]
          exact hv2
    · intro hcontra
      exact absurd hcontra hl
    · intro h0
      rw [heq bindex]
      refine ⟨fun hl0 => ?_, fun hl8 => ?_, fun hl0 hl8 => ?_⟩
      · rw [(hcs.1 h0).1 hl0]
        exact ⟨rfl, rfl⟩
      · rw [(hcs.1 h0).2.1 hl8]
        exact ⟨rfl, rfl, rfl⟩
      · rw [(hcs.1 h0).2.2 hl0 hl8]
    · intro h0
      rw [heq bindex, hcs.2 (by omega)]
      exact ⟨rfl, rfl⟩
    · intro hsucc
      rw [heq bindex] at hsucc ⊢
      by_cases h0 : t.seqMax = 0
      · by_cases hl0 : (getInternal bindex (strBytes t.partition)).length = 0
        · rw [(hcs.1 h0).1 hl0]
          refine ⟨rfl, ?_⟩
          show (0 : Nat) = t.seqMax
          omega
        · by_cases hl8 : (getInternal bindex (strBytes t.partition)).length = 8
          · rw [(hcs.1 h0).2.1 hl8]
            exact ⟨rfl, rfl⟩
          · rw [(hcs.1 h0).2.2 hl0 hl8] at hsucc
            exact absurd hsucc (by simp)
      · rw [hcs.2 (by omega)]
        exact ⟨rfl, rfl⟩

def bdpW6 : BleveDestPartition :=
  { newBleveDestPartition "0" with lastOpaque := some [9, 9] }

def idxW6 : BleveIndex := ⟨[(strBytes "0", [0, 0, 0, 0, 0, 0, 0, 7])], []⟩

theorem C6_getOpaque_witness :
    bdpW6.partitionOpaque = "o:" ++ bdpW6.partition ∧
    bdpW6.seqMax = 0 ∧
    (getInternal idxW6 (strBytes bdpW6.partition)).length = 8 ∧
    ((bdpW6.GetOpaque idxW6).2.2.1
       = bigEndianUint64 (getInternal idxW6 (strBytes bdpW6.partition)) ∧
     (bdpW6.GetOpaque idxW6).2.2.2 = none ∧
     (bdpW6.GetOpaque idxW6).1.seqMax
       = bigEndianUint64 (getInternal idxW6 (strBytes bdpW6.partition))) :=
  ⟨by decide, by decide, by decide,
   ((C6_getOpaque bdpW6 idxW6 idxW6 (by decide)).2.2.1 (by decide)).2.1
     (by decide)⟩

theorem getInternal_after_setInternal (idx : BleveIndex) (k v : List Nat) :
    getInternal (List.foldl applyOp idx [BatchOp.setInternal k v]) k = v := by
  show (if k = k then some v else lookupA idx.internal k).getD [] = v
  rw [if_pos rfl]
  rfl

theorem getOpaque_fresh (p : String) (I : BleveIndex) (v : List Nat)
    (hv : getInternal I (strBytes ("o:" ++ p)) = v)
    (hlen : (getInternal I (strBytes p)).length = 0
      ∨ (getInternal I (strBytes p)).length = 8) :
    ((newBleveDestPartition p).GetOpaque I).2.1 = v ∧
    ((newBleveDestPartition p).GetOpaque I).2.2.2 = none := by
  have heq : (newBleveDestPartition p).GetOpaque I
      = BleveDestPartition.getOpaqueTail
          { newBleveDestPartition p with lastOpaque :=
              (if getInternal I
                  (strBytes (newBleveDestPartition p).partitionOpaque) = []
               then none
               else some (getInternal I
                 (strBytes (newBleveDestPartition p).partitionOpaque))) } I := by
    unfold BleveDestPartition.GetOpaque
    rw [if_pos (show (newBleveDestPartition p).lastOpaque = none from rfl)]
  have hcs := getOpaqueTail_cases
    { newBleveDestPartition p with lastOpaque :=
        (if getInternal I
            (strBytes (newBleveDestPartition p).partitionOpaque) = []
         then none
         else some (getInternal I
           (strBytes (newBleveDestPartition p).partitionOpaque))) } I
  have hlob := lastOpaqueBytes_fill (newBleveDestPartition p)
    (getInternal I (strBytes (newBleveDestPartition p).partitionOpaque))
  have hval : getInternal I
      (strBytes (newBleveDestPartition p).partitionOpaque) = v := hv
  rw [heq]
  rcases hlen with hl0 | hl8
  · rw [(hcs.1 rfl).1 hl0]
    refine ⟨?_, rfl⟩
    show BleveDestPartition.lastOpaqueBytes _ = v
    rw [hlob, hval]
  · rw [(hcs.1 rfl).2.1 hl8]
    refine ⟨?_, rfl⟩
    show BleveDestPartition.lastOpaqueBytes _ = v
    rw [hlob, hval]

/-- C7: after setOpaque(v) followed by a successful batch apply, the
engine holds v verbatim under the opaque internal key, and a getOpaque
performed on a freshly reopened partition state, whose in-memory caches
are clear, returns v (given the persisted seqMax bytes under the
partition key are well-formed, so the read itself succeeds). -/
theorem C7_opaque_roundtrip (t : BleveDestPartition) (bindex : BleveIndex)
    (v : List Nat) (hOp : t.partitionOpaque = "o:" ++ t.partition) :
    getInternal ((t.SetOpaque v).applyBatchUnlocked bindex true).bindex
      (strBytes ("o:" ++ t.partition)) = v ∧
    ((getInternal ((t.SetOpaque v).applyBatchUnlocked bindex true).bindex
        (strBytes t.partition)).length = 0 ∨
     (getInternal ((t.SetOpaque v).applyBatchUnlocked bindex true).bindex
        (strBytes t.partition)).length = 8 →
     ((newBleveDestPartition t.partition).GetOpaque
        ((t.SetOpaque v).applyBatchUnlocked bindex true).bindex).2.1 = v ∧
     ((newBleveDestPartition t.partition).GetOpaque
        ((t.SetOpaque v).applyBatchUnlocked bindex true).bindex).2.2.2
       = none) := by
  have hkey : getInternal ((t.SetOpaque v).applyBatchUnlocked bindex true).bindex
      (strBytes ("o:" ++ t.partition)) = v := by
    show getInternal (applyOps bindex (t.SetOpaque v).batch)
      (strBytes ("o:" ++ t.partition)) = v
    have hbatch : (t.SetOpaque v).batch
        = t.batch ++ [BatchOp.setInternal (strBytes t.partitionOpaque) v] := rfl
    rw [hbatch, hOp]
    unfold applyOps
    rw [List.foldl_append]
    exact getInternal_after_setInternal
      (List.foldl applyOp bindex t.batch) (strBytes ("o:" ++ t.partition)) v
  exact ⟨hkey, fun hlen =>
    getOpaque_fresh t.partition
      ((t.SetOpaque v).applyBatchUnlocked bindex true).bindex v hkey hlen⟩

def bdpW7 : BleveDestPartition := newBleveDestPartition "3"

theorem C7_opaque_roundtrip_witness :
    bdpW7.partitionOpaque = "o:" ++ bdpW7.partition ∧
    getInternal ((bdpW7.SetOpaque [4, 2]).applyBatchUnlocked idxW true).bindex
      (strBytes ("o:" ++ bdpW7.partition)) = [4, 2] ∧
    ((getInternal ((bdpW7.SetOpaque [4, 2]).applyBatchUnlocked idxW
        true).bindex (strBytes bdpW7.partition)).length = 0 ∨
     (getInternal ((bdpW7.SetOpaque [4, 2]).applyBatchUnlocked idxW
        true).bindex (strBytes bdpW7.partition)).length = 8) ∧
    (((newBleveDestPartition bdpW7.partition).GetOpaque
        ((bdpW7.SetOpaque [4, 2]).applyBatchUnlocked idxW true).bindex).2.1
      = [4, 2] ∧
     ((newBleveDestPartition bdpW7.partition).GetOpaque
        ((bdpW7.SetOpaque [4, 2]).applyBatchUnlocked idxW true).bindex).2.2.2
      = none) :=
  ⟨by decide, (C7_opaque_roundtrip bdpW7 idxW [4, 2] (by decide)).1,
   Or.inl (by decide),
   (C7_opaque_roundtrip bdpW7 idxW [4, 2] (by decide)).2 (Or.inl (by decide))⟩

theorem closed_all_ops (t : BleveDest) (hc : t.bindex = none) :
    (∀ partition key seq val ok,
      (t.OnDataUpdate partition key seq val ok).2.2
        = some "BleveDest already closed") ∧
    (∀ partition key seq ok,
      (t.OnDataDelete partition key seq ok).2.2
        = some "BleveDest already closed") ∧
    (∀ partition s e ok,
      (t.OnSnapshotStart partition s e ok).2.2
        = some "BleveDest already closed") ∧
    (∀ partition value,
      (t.SetOpaque partition value).2 = some "BleveDest already closed") ∧
    (∀ partition,
      (t.GetOpaque partition).2.2.2 = some "BleveDest already closed") ∧
    (∀ partition level seq id,
      (t.ConsistencyWait partition level seq id).2.2
        = some "BleveDest already closed") ∧
    (∀ ok, (t.closeUnlocked ok).2.2 = some "BleveDest already closed") := by
  refine ⟨?_, ?_, ?_, ?_, ?_, ?_, ?_⟩
  · intro partition key seq val ok
    simp [BleveDest.OnDataUpdate, BleveDest.getPartitionUnlocked, hc]
  · intro partition key seq ok
    simp [BleveDest.OnDataDelete, BleveDest.getPartitionUnlocked, hc]
  · intro partition s e ok
    simp [BleveDest.OnSnapshotStart, BleveDest.getPartitionUnlocked, hc]
  · intro partition value
    simp [BleveDest.SetOpaque, BleveDest.getPartitionUnlocked, hc]
  · intro partition
    simp [BleveDest.GetOpaque, BleveDest.getPartitionUnlocked, hc]
  · intro partition level seq id
    simp [BleveDest.ConsistencyWait, BleveDest.getPartitionUnlocked, hc]
  · intro ok
    simp [BleveDest.closeUnlocked, hc]

/-- C8: a successful close nulls the engine handle, clears the partition
map, signals every wait still pending in any ingestor's heap with the
close error, and every subsequent operation dispatched through the shard
returns the already-closed error. -/
theorem C8_close (t : BleveDest) (hopen : t.bindex ≠ none) :
    (t.closeUnlocked true).2.2 = none ∧
    (t.closeUnlocked true).1.bindex = none ∧
    (t.closeUnlocked true).1.partitions = [] ∧
    (t.closeUnlocked true).2.1
      = (t.partitions.map (fun pr =>
          pr.2.cwrQueue.map (fun cwr =>
            (cwr, "consistency wait closed")))).flatten ∧
    (∀ partition key seq val ok,
      ((t.closeUnlocked true).1.OnDataUpdate partition key seq val ok).2.2
        = some "BleveDest already closed") ∧
    (∀ partition key seq ok,
      ((t.closeUnlocked true).1.OnDataDelete partition key seq ok).2.2
        = some "BleveDest already closed") ∧
    (∀ partition s e ok,
      ((t.closeUnlocked true).1.OnSnapshotStart partition s e ok).2.2
        = some "BleveDest already closed") ∧
    (∀ partition value,
      ((t.closeUnlocked true).1.SetOpaque partition value).2
        = some "BleveDest already closed") ∧
    (∀ partition,
      ((t.closeUnlocked true).1.GetOpaque partition).2.2.2
        = some "BleveDest already closed") ∧
    (∀ partition level seq id,
      ((t.closeUnlocked true).1.ConsistencyWait partition level seq id).2.2
        = some "BleveDest already closed") ∧
    (∀ ok, ((t.closeUnlocked true).1.closeUnlocked ok).2.2
        = some "BleveDest already closed") := by
  obtain ⟨bi, hbi⟩ : ∃ bi, t.bindex = some bi := by
    cases hb : t.bindex with
    | none => exact absurd hb hopen
    | some bi => exact ⟨bi, rfl⟩
  have hce : t.closeUnlocked true
      = ({ t with partitions := [], bindex := none },
         (t.partitions.map (fun pr => pr.2.runClose)).flatten, none) := by
    simp [BleveDest.closeUnlocked, hbi]
  have hclosed : (t.closeUnlocked true).1.bindex = none := by rw [hce]
  obtain ⟨ha, hb2, hc2, hd, he, hf, hg⟩ :=
    closed_all_ops (t.closeUnlocked true).1 hclosed
  refine ⟨by rw [hce], hclosed, by rw [hce], ?_, ha, hb2, hc2, hd, he, hf, hg⟩
  rw [hce]
  rfl

def bdpW8 : BleveDestPartition :=
  { newBleveDestPartition "0" with cwrQueue := [cwrB] }

def destW8 : BleveDest :=
  { path := "p", bindex := some idxW, partitions := [("0", bdpW8)] }

theorem C8_close_witness :
    destW8.bindex ≠ none ∧
    ((destW8.closeUnlocked true).2.2 = none ∧
     (destW8.closeUnlocked true).1.bindex = none ∧
     (destW8.closeUnlocked true).1.partitions = [] ∧
     (destW8.closeUnlocked true).2.1
       = (destW8.partitions.map (fun pr =>
           pr.2.cwrQueue.map (fun cwr =>
             (cwr, "consistency wait closed")))).flatten ∧
     (∀ partition key seq val ok,
       ((destW8.closeUnlocked true).1.OnDataUpdate partition key seq val
           ok).2.2 = some "BleveDest already closed") ∧
     (∀ partition key seq ok,
       ((destW8.closeUnlocked true).1.OnDataDelete partition key seq ok).2.2
         = some "BleveDest already closed") ∧
     (∀ partition s e ok,
       ((destW8.closeUnlocked true).1.OnSnapshotStart partition s e ok).2.2
         = some "BleveDest already closed") ∧
     (∀ partition value,
       ((destW8.closeUnlocked true).1.SetOpaque partition value).2
         = some "BleveDest already closed") ∧
     (∀ partition,
       ((destW8.closeUnlocked true).1.GetOpaque partition).2.2.2
         = some "BleveDest already closed") ∧
     (∀ partition level seq id,
       ((destW8.closeUnlocked true).1.ConsistencyWait partition level seq
           id).2.2 = some "BleveDest already closed") ∧
     (∀ ok, ((destW8.closeUnlocked true).1.closeUnlocked ok).2.2
         = some "BleveDest already closed")) :=
  ⟨by decide, C8_close destW8 (by decide)⟩

end Cbft
